import Mathlib

/-!
Verification of `A_star_maze.py`: a shallow embedding of the maze
generator (`generate_maze`) and the A* search (`astar`), together with
proofs and refutations of the specification's claims.

Conventions of the embedding:
* A grid is a `List (List ℕ)` exactly as in the source (1 = wall, 0 = open).
* Cells are pairs of integers, since the Python code forms coordinates such
  as `x - 1` that may be negative before the bounds check.
* The `heapq` frontier is modelled as a list of `(f, cell)` entries from
  which `heappop` removes the least entry in the lexicographic order on
  `(f, row, col)` — which is exactly Python's tuple comparison order.
* Python dicts `g_score` and `came_from` are modelled as functions into
  `Option`.
* The unbounded `while` loops run on an explicit fuel that is large enough
  (proved where needed); running out of fuel yields `none`.
-/

namespace AStarMaze

/-- A grid cell `(row, col)`; integer coordinates as in the Python source. -/
abbrev Cell : Type := ℤ × ℤ

/-- A frontier entry `(f, cell)` as pushed by `heapq.heappush`. -/
abbrev Entry : Type := ℤ × Cell

/-- Grid value at `(r, c)`: `grid[r][c]` for in-range nonnegative indices.
The default `1` (wall) is never observed by the algorithms, which guard
all accesses with bounds checks. -/
def cellVal (grid : List (List ℕ)) (r c : ℤ) : ℕ :=
  if 0 ≤ r ∧ 0 ≤ c then (grid.getD r.toNat []).getD c.toNat 1 else 1

/-- `heuristic(a, b)` from the source: Manhattan distance. -/
def heuristic (a b : Cell) : ℤ :=
  |a.1 - b.1| + |a.2 - b.2|

/-- Python tuple comparison `(f1, (r1,c1)) <= (f2, (r2,c2))` used by `heapq`. -/
def entryLe (a b : Entry) : Bool :=
  a.1 < b.1 || (a.1 == b.1 && (a.2.1 < b.2.1 || (a.2.1 == b.2.1 && a.2.2 ≤ b.2.2)))

/-- Remove the first occurrence of `a` from `l`. -/
def eraseFirst (l : List Entry) (a : Entry) : List Entry :=
  match l with
  | [] => []
  | x :: xs => if x = a then xs else x :: eraseFirst xs a

/-- `heapq.heappop`: remove and return the least entry of the frontier
(with respect to Python tuple order).  Returns the popped entry and the
remaining frontier; `none` on an empty frontier. -/
def popMin (l : List Entry) : Option (Entry × List Entry) :=
  match l with
  | [] => none
  | e :: rest =>
    let m := rest.foldl (fun a b => if entryLe a b then a else b) e
    some (m, eraseFirst (e :: rest) m)

/-- Status tag of a step record: `'Searching...'` or `'Goal Reached!'`. -/
inductive AStatus : Type
  | Searching : AStatus
  | GoalReached : AStatus
deriving DecidableEq, Repr

/-- One element of the `steps` trace: the dict appended by the source. -/
structure StepRecord : Type where
  node : Cell
  g : ℤ
  h : ℤ
  f : ℤ
  neighbors : List (Cell × ℤ × ℤ × ℤ)
  status : AStatus
deriving DecidableEq, Repr

/-- Pointwise update of a finite-map-as-function (a Python dict write). -/
def mapUpd {α : Type} (f : Cell → Option α) (k : Cell) (v : α) : Cell → Option α :=
  fun x => if x = k then some v else f x

/-- Mutable state of the A* main loop. -/
structure AState : Type where
  openSet : List Entry
  gScore : Cell → Option ℤ
  cameFrom : Cell → Option Cell
  steps : List StepRecord

/-- The `while current in came_from` reconstruction loop: returns the list
of cells appended (`path` before the final `path.append(start)`) and the
final value of the mutated variable `current`. -/
def reconLoop (cf : Cell → Option Cell) : ℕ → Cell → List Cell → List Cell × Cell
  | 0, cur, acc => (acc, cur)
  | fuel+1, cur, acc =>
    match cf cur with
    | some p => reconLoop cf fuel p (acc ++ [cur])
    | none => (acc, cur)

/-- The four axis-aligned neighbor candidates enumerated by the source. -/
def nbrsOf (c : Cell) : List Cell :=
  [(c.1 + 1, c.2), (c.1 - 1, c.2), (c.1, c.2 + 1), (c.1, c.2 - 1)]

/-- State threaded through the neighbor loop of `astar`: the details list,
`g_score`, `open_set` and `came_from`. -/
abbrev FoldState : Type :=
  List (Cell × ℤ × ℤ × ℤ) × (Cell → Option ℤ) × List Entry × (Cell → Option Cell)

/-- One iteration of the `for nx, ny in neighbors` loop body of `astar`. -/
def expandStep (grid : List (List ℕ)) (rows cols : ℤ) (goal current : Cell)
    (acc : FoldState) (nb : Cell) : FoldState :=
  let (details, gs, os, cf) := acc
  if 0 ≤ nb.1 ∧ nb.1 < rows ∧ 0 ≤ nb.2 ∧ nb.2 < cols ∧ cellVal grid nb.1 nb.2 = 0 then
    let tentative : ℤ := (gs current).getD 0 + 1
    let hVal : ℤ := heuristic nb goal
    let fVal : ℤ := tentative + hVal
    let details := details ++ [(nb, tentative, hVal, fVal)]
    if (gs nb).isNone ∨ tentative < (gs nb).getD 0 then
      (details, mapUpd gs nb tentative, os ++ [(fVal, nb)], mapUpd cf nb current)
    else
      (details, gs, os, cf)
  else acc

/-- The `for nx, ny in neighbors` loop of `astar`: threads the
neighbor-details list, `g_score`, `open_set` and `came_from` through the
four candidate neighbors of `current`. -/
def expand (grid : List (List ℕ)) (rows cols : ℤ) (goal current : Cell)
    (gs : Cell → Option ℤ) (os : List Entry) (cf : Cell → Option Cell) : FoldState :=
  (nbrsOf current).foldl (expandStep grid rows cols goal current) ([], gs, os, cf)

/-- The `while open_set` main loop of `astar`.  `reconFuel` bounds the inner
path-reconstruction walk.  Returns `none` iff the fuel runs out. -/
def loopA (grid : List (List ℕ)) (rows cols : ℤ) (start goal : Cell) (reconFuel : ℕ) :
    ℕ → AState → Option (Option (List Cell) × List StepRecord)
  | 0, _ => none
  | fuel+1, st =>
    match popMin st.openSet with
    | none => some (none, st.steps)
    | some ((curF, current), rest) =>
      let curG : ℤ := (st.gScore current).getD 0
      let curH : ℤ := heuristic current goal
      if current = goal then
        let (revPath, endCell) := reconLoop st.cameFrom reconFuel current []
        let path := (revPath ++ [start]).reverse
        let record : StepRecord :=
          ⟨endCell, curG, curH, curF, [], AStatus.GoalReached⟩
        some (some path, st.steps ++ [record])
      else
        let (details, gs, os, cf) := expand grid rows cols goal current st.gScore rest st.cameFrom
        loopA grid rows cols start goal reconFuel fuel
          ⟨os, gs, cf, st.steps ++ [⟨current, curG, curH, curF, details, AStatus.Searching⟩]⟩

/-- Number of grid positions, used only to size the fuel. -/
def gridSize (grid : List (List ℕ)) : ℕ :=
  grid.length * (grid.headD []).length

/-- `astar(grid, start, goal)` from the source.  The result is
`some (path?, steps)` where `path? = none` models Python's `None` path;
the outer `Option` is `none` only on fuel exhaustion (shown impossible
for the inputs of the claims). -/
def astar (grid : List (List ℕ)) (start goal : Cell) :
    Option (Option (List Cell) × List StepRecord) :=
  let rows : ℤ := (grid.length : ℤ)
  let cols : ℤ := ((grid.headD []).length : ℤ)
  let init : AState :=
    ⟨[((0 : ℤ), start)], mapUpd (fun _ => none) start 0, fun _ => none, []⟩
  loopA grid rows cols start goal (gridSize grid + 1)
    (gridSize grid * gridSize grid + 2) init

/-! ### Grid predicates and unit-cost reachability (the BFS reference) -/

/-- `0 <= r < rows and 0 <= c < cols`, the bounds check of the source. -/
def inBounds (rows cols : ℤ) (c : Cell) : Prop :=
  0 ≤ c.1 ∧ c.1 < rows ∧ 0 ≤ c.2 ∧ c.2 < cols

instance (rows cols : ℤ) (c : Cell) : Decidable (inBounds rows cols c) := by
  unfold inBounds; infer_instance

/-- The cell is a path cell (`grid[r][c] == 0`). -/
def isOpen (grid : List (List ℕ)) (c : Cell) : Prop :=
  cellVal grid c.1 c.2 = 0

instance (grid : List (List ℕ)) (c : Cell) : Decidable (isOpen grid c) := by
  unfold isOpen; infer_instance

/-- A traversable unit edge: both cells in bounds, both open, 4-adjacent. -/
def edgeTo (grid : List (List ℕ)) (rows cols : ℤ) (a b : Cell) : Prop :=
  inBounds rows cols a ∧ inBounds rows cols b ∧ isOpen grid a ∧ isOpen grid b ∧
    |a.1 - b.1| + |a.2 - b.2| = 1

instance (grid : List (List ℕ)) (rows cols : ℤ) (a b : Cell) :
    Decidable (edgeTo grid rows cols a b) := by
  unfold edgeTo; infer_instance

/-- `reachB grid rows cols s n t`: there is a path of at most `n` unit edges
from `s` to `t` through open in-bounds cells.  This is the breadth-first
search reference semantics: `t` is reached at BFS depth `≤ n`. -/
def reachB (grid : List (List ℕ)) (rows cols : ℤ) (s : Cell) : ℕ → Cell → Bool
  | 0, t => t == s
  | n+1, t =>
    reachB grid rows cols s n t ||
      (nbrsOf t).any (fun c => decide (edgeTo grid rows cols c t) && reachB grid rows cols s n c)

theorem edgeTo_symm {grid : List (List ℕ)} {rows cols : ℤ} {a b : Cell}
    (h : edgeTo grid rows cols a b) : edgeTo grid rows cols b a := by
  obtain ⟨h1, h2, h3, h4, h5⟩ := h
  refine ⟨h2, h1, h4, h3, ?_⟩
  rw [abs_sub_comm b.1 a.1, abs_sub_comm b.2 a.2]
  exact h5

theorem edgeTo_mem_nbrsOf {grid : List (List ℕ)} {rows cols : ℤ} {a b : Cell}
    (h : edgeTo grid rows cols a b) : a ∈ nbrsOf b := by
  obtain ⟨_, _, _, _, h5⟩ := h
  obtain ⟨a1, a2⟩ := a
  obtain ⟨b1, b2⟩ := b
  simp only [nbrsOf, List.mem_cons, List.mem_singleton, Prod.mk.injEq]
  simp only at h5
  rcases abs_cases (a1 - b1) with ⟨e1, _⟩ | ⟨e1, _⟩ <;>
    rcases abs_cases (a2 - b2) with ⟨e2, _⟩ | ⟨e2, _⟩ <;> omega

theorem reachB_zero {grid : List (List ℕ)} {rows cols : ℤ} {s t : Cell} :
    reachB grid rows cols s 0 t = true ↔ t = s := by
  simp [reachB]

theorem reachB_mono {grid : List (List ℕ)} {rows cols : ℤ} {s t : Cell} {n : ℕ}
    (h : reachB grid rows cols s n t = true) : reachB grid rows cols s (n + 1) t = true := by
  simp only [reachB, Bool.or_eq_true]
  exact Or.inl h

theorem reachB_mono_le {grid : List (List ℕ)} {rows cols : ℤ} {s t : Cell} {m n : ℕ}
    (hmn : m ≤ n) (h : reachB grid rows cols s m t = true) :
    reachB grid rows cols s n t = true := by
  induction n with
  | zero => simpa [Nat.le_zero.mp hmn] using h
  | succ n ih =>
    rcases Nat.lt_or_ge m (n + 1) with hlt | hge
    · exact reachB_mono (ih (Nat.lt_succ_iff.mp hlt))
    · have : m = n + 1 := le_antisymm hmn hge
      simpa [this] using h

theorem reachB_step {grid : List (List ℕ)} {rows cols : ℤ} {s c t : Cell} {n : ℕ}
    (h : reachB grid rows cols s n c = true) (he : edgeTo grid rows cols c t) :
    reachB grid rows cols s (n + 1) t = true := by
  simp only [reachB, Bool.or_eq_true, List.any_eq_true]
  exact Or.inr ⟨c, edgeTo_mem_nbrsOf he, by simp [he, h]⟩

/-- From reachability, extract an explicit path: a chained list of cells
from `s` to `t` with at most `n` edges. -/
theorem reachB_extract {grid : List (List ℕ)} {rows cols : ℤ} {s : Cell} :
    ∀ {n : ℕ} {t : Cell}, reachB grid rows cols s n t = true →
      ∃ l : List Cell, l.Chain' (edgeTo grid rows cols) ∧ l.head? = some s ∧
        l.getLast? = some t ∧ l.length ≤ n + 1 ∧ l ≠ [] := by
  intro n
  induction n with
  | zero =>
    intro t h
    rw [reachB_zero] at h
    subst h
    exact ⟨[t], by simp, by simp, by simp, by simp, by simp⟩
  | succ n ih =>
    intro t h
    simp only [reachB, Bool.or_eq_true, List.any_eq_true, Bool.and_eq_true,
      decide_eq_true_eq] at h
    rcases h with h | ⟨c, _, he, hc⟩
    · obtain ⟨l, h1, h2, h3, h4, h5⟩ := ih h
      exact ⟨l, h1, h2, h3, Nat.le_succ_of_le h4, h5⟩
    · obtain ⟨l, h1, h2, h3, h4, h5⟩ := ih hc
      refine ⟨l ++ [t], ?_, ?_, ?_, ?_, ?_⟩
      · rw [List.chain'_append]
        refine ⟨h1, by simp, ?_⟩
        intro x hx y hy
        simp only [List.head?_cons, Option.mem_def, Option.some.injEq] at hy
        rw [h3] at hx
        simp only [Option.mem_def, Option.some.injEq] at hx
        subst hx; subst hy
        exact he
      · rcases l with _ | ⟨a, l⟩
        · simp at h5
        · simpa using h2
      · simp
      · simp only [List.length_append, List.length_singleton]
        omega
      · simp

/-- Walking a chain forward extends reachability one edge at a time. -/
theorem reachB_chain_extend {grid : List (List ℕ)} {rows cols : ℤ} {s : Cell} :
    ∀ (l : List Cell) (c t : Cell) (n : ℕ), reachB grid rows cols s n c = true →
      (c :: l).Chain' (edgeTo grid rows cols) → (c :: l).getLast? = some t →
      reachB grid rows cols s (n + l.length) t = true := by
  intro l
  induction l with
  | nil =>
    intro c t n hr _ hl
    simp only [List.getLast?_singleton, Option.some.injEq] at hl
    subst hl
    simpa using hr
  | cons b l ih =>
    intro c t n hr hch hl
    rw [List.chain'_cons] at hch
    have hb : reachB grid rows cols s (n + 1) b = true := reachB_step hr hch.1
    have := ih b t (n + 1) hb hch.2 (by simpa using hl)
    have hlen : n + 1 + l.length = n + (b :: l).length := by simp; omega
    simpa [hlen] using this

/-- A chained path list yields reachability with `length - 1` edges. -/
theorem reachB_of_chain {grid : List (List ℕ)} {rows cols : ℤ} {l : List Cell} {s t : Cell}
    (hch : l.Chain' (edgeTo grid rows cols)) (hh : l.head? = some s)
    (hl : l.getLast? = some t) :
    reachB grid rows cols s (l.length - 1) t = true := by
  rcases l with _ | ⟨a, rest⟩
  · simp at hh
  · simp only [List.head?_cons, Option.some.injEq] at hh
    subst hh
    have := reachB_chain_extend rest a t 0 (reachB_zero.mpr rfl) hch hl
    simpa using this

/-! ### Heuristic lemmas -/

theorem heuristic_self (a : Cell) : heuristic a a = 0 := by
  simp [heuristic]

theorem heuristic_nonneg (a b : Cell) : 0 ≤ heuristic a b := by
  have := abs_nonneg (a.1 - b.1)
  have := abs_nonneg (a.2 - b.2)
  unfold heuristic; omega

/-- Manhattan distance is consistent: it changes by at most one along an edge. -/
theorem heuristic_step {grid : List (List ℕ)} {rows cols : ℤ} {a b : Cell} (goal : Cell)
    (h : edgeTo grid rows cols a b) : heuristic a goal ≤ heuristic b goal + 1 := by
  obtain ⟨_, _, _, _, h5⟩ := h
  unfold heuristic at *
  have t1 : |a.1 - goal.1| ≤ |a.1 - b.1| + |b.1 - goal.1| := by
    calc |a.1 - goal.1| = |(a.1 - b.1) + (b.1 - goal.1)| := by ring_nf
    _ ≤ |a.1 - b.1| + |b.1 - goal.1| := abs_add _ _
  have t2 : |a.2 - goal.2| ≤ |a.2 - b.2| + |b.2 - goal.2| := by
    calc |a.2 - goal.2| = |(a.2 - b.2) + (b.2 - goal.2)| := by ring_nf
    _ ≤ |a.2 - b.2| + |b.2 - goal.2| := abs_add _ _
  omega

/-- Along a chained path that ends at `goal`, the Manhattan heuristic of the
`i`-th cell is at most the number of remaining edges (admissibility along
the path). -/
theorem chain_heuristic_bound {grid : List (List ℕ)} {rows cols : ℤ} {l : List Cell}
    {goal : Cell} (hch : l.Chain' (edgeTo grid rows cols)) (hlast : l.getLast? = some goal) :
    ∀ i (hi : i < l.length), heuristic (l.get ⟨i, hi⟩) goal ≤ ((l.length - 1 - i : ℕ) : ℤ) := by
  have key : ∀ d i (hi : i < l.length), l.length - 1 - i = d →
      heuristic (l.get ⟨i, hi⟩) goal ≤ ((l.length - 1 - i : ℕ) : ℤ) := by
    intro d
    induction d with
    | zero =>
      intro i hi hd
      have hne : l ≠ [] := by intro h; subst h; simp at hi
      have hi' : i = l.length - 1 := by omega
      subst hi'
      have hgl : l.get ⟨l.length - 1, hi⟩ = l.getLast hne := by
        rw [List.getLast_eq_getElem, List.get_eq_getElem]
      rw [hgl]
      have hgoal : l.getLast hne = goal := by
        rw [List.getLast?_eq_getLast l hne] at hlast
        injection hlast
      rw [hgoal, heuristic_self, hd]
      simp
    | succ d ih =>
      intro i hi hd
      have hi1 : i + 1 < l.length := by omega
      have hstep := (List.chain'_iff_get.mp hch) i (by omega)
      have hb := ih (i + 1) hi1 (by omega)
      have := heuristic_step goal hstep
      have harith : ((l.length - 1 - i : ℕ) : ℤ) = ((l.length - 1 - (i + 1) : ℕ) : ℤ) + 1 := by
        omega
      rw [harith]
      omega
  intro i hi
  exact key (l.length - 1 - i) i hi rfl

/-! ### Frontier lemmas (`heapq` pop) -/

theorem entryLe_refl (a : Entry) : entryLe a a = true := by
  simp [entryLe]

theorem entryLe_total (a b : Entry) : entryLe a b = true ∨ entryLe b a = true := by
  simp only [entryLe, Bool.or_eq_true, Bool.and_eq_true, decide_eq_true_eq, beq_iff_eq]
  omega

theorem entryLe_trans {a b c : Entry} (h1 : entryLe a b = true) (h2 : entryLe b c = true) :
    entryLe a c = true := by
  simp only [entryLe, Bool.or_eq_true, Bool.and_eq_true, decide_eq_true_eq, beq_iff_eq] at *
  omega

theorem entryLe_fst {a b : Entry} (h : entryLe a b = true) : a.1 ≤ b.1 := by
  simp only [entryLe, Bool.or_eq_true, Bool.and_eq_true, decide_eq_true_eq, beq_iff_eq] at h
  omega

theorem foldl_min_spec (rest : List Entry) (e : Entry) :
    (rest.foldl (fun a b => if entryLe a b then a else b) e = e ∨
      rest.foldl (fun a b => if entryLe a b then a else b) e ∈ rest) ∧
    (∀ x, (x = e ∨ x ∈ rest) →
      entryLe (rest.foldl (fun a b => if entryLe a b then a else b) e) x = true) := by
  induction rest generalizing e with
  | nil =>
    refine ⟨Or.inl rfl, ?_⟩
    rintro x (rfl | hx)
    · exact entryLe_refl x
    · simp at hx
  | cons b rest ih =>
    simp only [List.foldl_cons]
    obtain ⟨ihmem, ihmin⟩ := ih (if entryLe e b then e else b)
    have hfb : (if entryLe e b then e else b) = e ∨ (if entryLe e b then e else b) = b := by
      by_cases h : entryLe e b = true <;> simp [h]
    have hle_e : entryLe (if entryLe e b then e else b) e = true := by
      by_cases h : entryLe e b = true
      · simp [h, entryLe_refl]
      · rcases entryLe_total e b with h' | h'
        · exact absurd h' h
        · rw [if_neg h]
          exact h'
    have hle_b : entryLe (if entryLe e b then e else b) b = true := by
      by_cases h : entryLe e b = true
      · rw [if_pos h]
        exact h
      · simp [h, entryLe_refl]
    constructor
    · rcases ihmem with h' | h'
      · rcases hfb with h2 | h2
        · exact Or.inl (h'.trans h2)
        · exact Or.inr (List.mem_cons.mpr (Or.inl (h'.trans h2)))
      · exact Or.inr (List.mem_cons_of_mem _ h')
    · intro x hx
      have hminfb := ihmin _ (Or.inl rfl)
      rcases hx with hxe | hx
      · rw [hxe]
        exact entryLe_trans hminfb hle_e
      · rcases List.mem_cons.mp hx with hxb | hx
        · rw [hxb]
          exact entryLe_trans hminfb hle_b
        · exact ihmin _ (Or.inr hx)

theorem perm_cons_eraseFirst {a : Entry} : ∀ {l : List Entry}, a ∈ l →
    l.Perm (a :: eraseFirst l a) := by
  intro l
  induction l with
  | nil => intro h; simp at h
  | cons x xs ih =>
    intro h
    by_cases hx : x = a
    · subst hx
      simp [eraseFirst]
    · have ha : a ∈ xs := by
        rcases List.mem_cons.mp h with h' | h'
        · exact absurd h'.symm hx
        · exact h'
      have : (x :: xs).Perm (x :: a :: eraseFirst xs a) := List.Perm.cons x (ih ha)
      refine this.trans ?_
      have := List.Perm.swap a x (eraseFirst xs a)
      refine this.trans ?_
      simp [eraseFirst, hx]

theorem popMin_nil : popMin [] = none := rfl

theorem popMin_eq_none {l : List Entry} (h : popMin l = none) : l = [] := by
  cases l with
  | nil => rfl
  | cons e rest => simp [popMin] at h

theorem popMin_spec {l : List Entry} {m : Entry} {rest : List Entry}
    (h : popMin l = some (m, rest)) :
    m ∈ l ∧ (∀ x ∈ l, entryLe m x = true) ∧ l.Perm (m :: rest) := by
  cases l with
  | nil => simp [popMin] at h
  | cons e tl =>
    simp only [popMin, Option.some.injEq, Prod.mk.injEq] at h
    obtain ⟨hm, hrest⟩ := h
    obtain ⟨hmem, hmin⟩ := foldl_min_spec tl e
    rw [hm] at hmem hmin
    have hmem' : m ∈ e :: tl := by
      rcases hmem with h' | h'
      · simp [h']
      · exact List.mem_cons_of_mem _ h'
    refine ⟨hmem', ?_, ?_⟩
    · intro x hx
      rcases List.mem_cons.mp hx with rfl | hx
      · exact hmin _ (Or.inl rfl)
      · exact hmin _ (Or.inr hx)
    · rw [← hrest, hm]
      exact perm_cons_eraseFirst hmem'

/-! ### Neighbor list and map-update lemmas -/

theorem mem_nbrsOf_dist {c d : Cell} (h : d ∈ nbrsOf c) : |c.1 - d.1| + |c.2 - d.2| = 1 := by
  obtain ⟨c1, c2⟩ := c
  simp only [nbrsOf, List.mem_cons, List.not_mem_nil, or_false] at h
  rcases h with rfl | rfl | rfl | rfl <;> simp

theorem self_not_mem_nbrsOf (c : Cell) : c ∉ nbrsOf c := by
  intro h
  have := mem_nbrsOf_dist h
  simp at this

theorem ne_of_mem_nbrsOf {c d : Cell} (h : d ∈ nbrsOf c) : d ≠ c := by
  intro e
  subst e
  exact self_not_mem_nbrsOf _ h

@[simp] theorem mapUpd_same {α : Type} (f : Cell → Option α) (k : Cell) (v : α) :
    mapUpd f k v k = some v := by
  simp [mapUpd]

theorem mapUpd_other {α : Type} (f : Cell → Option α) (k : Cell) (v : α) {x : Cell}
    (h : x ≠ k) : mapUpd f k v x = f x := by
  simp [mapUpd, h]

/-! ### Potential function for termination of the main loop -/

/-- All in-bounds cells, as a finite set. -/
def cellsFinset (rows cols : ℤ) : Finset Cell :=
  Finset.Ico 0 rows ×ˢ Finset.Ico 0 cols

theorem mem_cellsFinset {rows cols : ℤ} {c : Cell} :
    c ∈ cellsFinset rows cols ↔ inBounds rows cols c := by
  cases c
  simp [cellsFinset, inBounds, Finset.mem_Ico, and_assoc]

theorem card_cellsFinset (rows cols : ℤ) :
    (cellsFinset rows cols).card = rows.toNat * cols.toNat := by
  simp [cellsFinset, Int.card_Ico]

/-- Number of keys of the `g_score` map (among in-bounds cells). -/
def gCard (rows cols : ℤ) (gs : Cell → Option ℤ) : ℕ :=
  ((cellsFinset rows cols).filter (fun c => (gs c).isSome)).card

/-- Contribution of one cell to the loop potential. -/
def gTerm (rows cols : ℤ) (gs : Cell → Option ℤ) (c : Cell) : ℕ :=
  match gs c with
  | some v => v.toNat
  | none => rows.toNat * cols.toNat

/-- The loop potential: frontier length plus the summed `g` terms.  It
strictly decreases at every iteration of the A* loop. -/
def phi (rows cols : ℤ) (os : List Entry) (gs : Cell → Option ℤ) : ℕ :=
  os.length + ∑ c ∈ cellsFinset rows cols, gTerm rows cols gs c

theorem gCard_le (rows cols : ℤ) (gs : Cell → Option ℤ) :
    gCard rows cols gs ≤ rows.toNat * cols.toNat := by
  rw [← card_cellsFinset rows cols]
  exact Finset.card_le_card (Finset.filter_subset _ _)

theorem gCard_upd_new {rows cols : ℤ} {gs : Cell → Option ℤ} {k : Cell} {v : ℤ}
    (hk : k ∈ cellsFinset rows cols) (hnone : gs k = none) :
    gCard rows cols (mapUpd gs k v) = gCard rows cols gs + 1 := by
  unfold gCard
  have hset : (cellsFinset rows cols).filter (fun c => ((mapUpd gs k v) c).isSome) =
      insert k ((cellsFinset rows cols).filter (fun c => (gs c).isSome)) := by
    ext x
    by_cases hx : x = k
    · subst hx
      simp [Finset.mem_filter, hk]
    · simp [Finset.mem_filter, Finset.mem_insert, hx, mapUpd_other gs k v hx]
  rw [hset, Finset.card_insert_of_not_mem]
  simp [Finset.mem_filter, hnone]

theorem gCard_upd_old (rows cols : ℤ) {gs : Cell → Option ℤ} {k : Cell} {v : ℤ}
    (hsome : (gs k).isSome) :
    gCard rows cols (mapUpd gs k v) = gCard rows cols gs := by
  unfold gCard
  congr 1
  ext x
  by_cases hx : x = k
  · subst hx
    simp [Finset.mem_filter, hsome]
  · simp [Finset.mem_filter, mapUpd_other gs k v hx]

theorem sum_gTerm_upd {rows cols : ℤ} (gs : Cell → Option ℤ) {k : Cell} {v : ℤ}
    (hk : k ∈ cellsFinset rows cols) :
    (∑ c ∈ cellsFinset rows cols, gTerm rows cols (mapUpd gs k v) c) + gTerm rows cols gs k =
      (∑ c ∈ cellsFinset rows cols, gTerm rows cols gs c) + v.toNat := by
  have h1 := Finset.add_sum_erase (cellsFinset rows cols)
    (fun c => gTerm rows cols (mapUpd gs k v) c) hk
  have h2 := Finset.add_sum_erase (cellsFinset rows cols) (fun c => gTerm rows cols gs c) hk
  have hsums : (∑ x ∈ (cellsFinset rows cols).erase k, gTerm rows cols (mapUpd gs k v) x) =
      ∑ x ∈ (cellsFinset rows cols).erase k, gTerm rows cols gs x := by
    refine Finset.sum_congr rfl ?_
    intro x hx
    have hxk : x ≠ k := Finset.ne_of_mem_erase hx
    simp [gTerm, mapUpd_other gs k v hxk]
  have hterm : gTerm rows cols (mapUpd gs k v) k = v.toNat := by
    simp [gTerm]
  simp only at h1 h2
  omega

/-! ### The neighbor-expansion fold: relative invariant -/

/-- Invariant of the neighbor loop of `astar`, relating the loop
accumulator to the state `(gs0, os0, cf0)` at the start of the loop.
`cur` is the popped cell and `vcur` its `g_score` value. -/
structure EInv (grid : List (List ℕ)) (rows cols : ℤ) (goal cur : Cell) (vcur : ℤ)
    (gs0 : Cell → Option ℤ) (os0 : List Entry) (cf0 : Cell → Option Cell)
    (acc : FoldState) : Prop where
  gsCur : acc.2.1 cur = some vcur
  evolve : ∀ c, (acc.2.1 c = gs0 c ∧ acc.2.2.2 c = cf0 c) ∨
    (c ∈ nbrsOf cur ∧ inBounds rows cols c ∧ isOpen grid c ∧
      acc.2.1 c = some (vcur + 1) ∧ acc.2.2.2 c = some cur ∧
      (vcur + 1 + heuristic c goal, c) ∈ acc.2.2.1 ∧
      (gs0 c = none ∨ ∃ w, gs0 c = some w ∧ vcur + 1 < w))
  osOld : ∀ e ∈ os0, e ∈ acc.2.2.1
  osNew : ∀ e ∈ acc.2.2.1, e ∈ os0 ∨
    ∃ c2, e = (vcur + 1 + heuristic c2 goal, c2) ∧ acc.2.1 c2 = some (vcur + 1)
  bound : ∀ c v, acc.2.1 c = some v → 0 ≤ v ∧ v.toNat + 1 ≤ gCard rows cols acc.2.1
  phiLe : phi rows cols acc.2.2.1 acc.2.1 ≤ phi rows cols os0 gs0

theorem expandStep_cond_iff (grid : List (List ℕ)) (rows cols : ℤ) (d : Cell) :
    (0 ≤ d.1 ∧ d.1 < rows ∧ 0 ≤ d.2 ∧ d.2 < cols ∧ cellVal grid d.1 d.2 = 0) ↔
      inBounds rows cols d ∧ isOpen grid d := by
  unfold inBounds isOpen
  tauto

theorem expandStep_inv {grid : List (List ℕ)} {rows cols : ℤ} {goal cur : Cell} {vcur : ℤ}
    {gs0 : Cell → Option ℤ} {os0 : List Entry} {cf0 : Cell → Option Cell}
    {acc : FoldState} {d : Cell} (hd : d ∈ nbrsOf cur)
    (hI : EInv grid rows cols goal cur vcur gs0 os0 cf0 acc) :
    EInv grid rows cols goal cur vcur gs0 os0 cf0 (expandStep grid rows cols goal cur acc d) ∧
    (∀ c w, acc.2.1 c = some w →
      ∃ w', (expandStep grid rows cols goal cur acc d).2.1 c = some w' ∧ w' ≤ w) ∧
    (inBounds rows cols d → isOpen grid d →
      ∃ w, (expandStep grid rows cols goal cur acc d).2.1 d = some w ∧ w ≤ vcur + 1) := by
  obtain ⟨dl, gs, os, cf⟩ := acc
  obtain ⟨gsCur, evolve, osOld, osNew, bound, phiLe⟩ := hI
  simp only at gsCur osNew bound phiLe
  have hdc : d ≠ cur := ne_of_mem_nbrsOf hd
  have hvc : 0 ≤ vcur := (bound cur vcur gsCur).1
  by_cases hcond : 0 ≤ d.1 ∧ d.1 < rows ∧ 0 ≤ d.2 ∧ d.2 < cols ∧ cellVal grid d.1 d.2 = 0
  · -- the neighbor is in bounds and open
    obtain ⟨hdB, hdO⟩ := (expandStep_cond_iff grid rows cols d).mp hcond
    have htent : (gs cur).getD 0 + 1 = vcur + 1 := by rw [gsCur]; rfl
    by_cases hrel : (gs d).isNone ∨ vcur + 1 < (gs d).getD 0
    · -- the neighbor is relaxed: g_score and came_from updated, entry pushed
      have hstep : expandStep grid rows cols goal cur (dl, gs, os, cf) d =
          (dl ++ [(d, vcur + 1, heuristic d goal, vcur + 1 + heuristic d goal)],
            mapUpd gs d (vcur + 1),
            os ++ [(vcur + 1 + heuristic d goal, d)],
            mapUpd cf d cur) := by
        simp only [expandStep, if_pos hcond, if_pos hrel, htent]
      rw [hstep]
      -- the old g value at d: none, or strictly above vcur + 1
      have hold : gs d = gs0 d ∧ (gs0 d = none ∨ ∃ w, gs0 d = some w ∧ vcur + 1 < w) := by
        rcases evolve d with ⟨h1, _⟩ | ⟨_, _, _, h4, _, _, _⟩
        · simp only at h1
          refine ⟨h1, ?_⟩
          rcases hrel with hn | hlt
          · exact Or.inl (h1 ▸ (Option.isNone_iff_eq_none.mp hn))
          · rcases hgd : gs d with _ | w
            · rw [hgd] at hlt
              simp at hlt
              omega
            · rw [hgd] at hlt
              simp only [Option.getD_some] at hlt
              exact Or.inr ⟨w, h1 ▸ hgd, by omega⟩
        · exfalso
          simp only at h4
          rw [h4] at hrel
          simp at hrel
      have hdCells : d ∈ cellsFinset rows cols := mem_cellsFinset.mpr hdB
      -- gCard after the update
      have hbound' : ∀ c v, mapUpd gs d (vcur + 1) c = some v →
          0 ≤ v ∧ v.toNat + 1 ≤ gCard rows cols (mapUpd gs d (vcur + 1)) := by
        intro c v hc
        rcases hold.2 with hnone | ⟨w, hw, hlt⟩
        · -- new key
          have hnone' : gs d = none := hold.1.trans hnone
          have hcard := gCard_upd_new (v := vcur + 1) hdCells hnone'
          by_cases hcd : c = d
          · subst hcd
            rw [mapUpd_same] at hc
            have := (bound cur vcur gsCur).2
            injection hc with hv
            omega
          · rw [mapUpd_other gs d _ hcd] at hc
            have := bound c v hc
            omega
        · -- existing key improved
          have hsome : (gs d).isSome := by
            rw [hold.1, hw]; rfl
          have hcard := gCard_upd_old rows cols (v := vcur + 1) hsome
          by_cases hcd : c = d
          · subst hcd
            rw [mapUpd_same] at hc
            have hwb := bound c w (hold.1.trans hw)
            injection hc with hv
            omega
          · rw [mapUpd_other gs d _ hcd] at hc
            have := bound c v hc
            omega
      refine ⟨⟨?_, ?_, ?_, ?_, ?_, ?_⟩, ?_, ?_⟩
      · -- gsCur preserved
        simpa [mapUpd_other gs d _ (Ne.symm hdc)] using gsCur
      · -- evolve
        intro c
        by_cases hcd : c = d
        · subst hcd
          refine Or.inr ⟨hd, hdB, hdO, by simp, by simp, ?_, hold.2⟩
          simp
        · rcases evolve c with ⟨h1, h2⟩ | ⟨m1, m2, m3, m4, m5, m6, m7⟩
          · exact Or.inl ⟨by simpa [mapUpd_other gs d _ hcd] using h1,
              by simpa [mapUpd_other cf d cur hcd] using h2⟩
          · refine Or.inr ⟨m1, m2, m3, ?_, ?_, ?_, m7⟩
            · simpa [mapUpd_other gs d _ hcd] using m4
            · simpa [mapUpd_other cf d cur hcd] using m5
            · simp only at m6
              exact List.mem_append.mpr (Or.inl m6)
      · -- osOld
        intro e he
        exact List.mem_append.mpr (Or.inl (osOld e he))
      · -- osNew
        intro e he
        rcases List.mem_append.mp he with he | he
        · rcases osNew e he with h | ⟨c2, hc2, hg2⟩
          · exact Or.inl h
          · refine Or.inr ⟨c2, hc2, ?_⟩
            by_cases hc2d : c2 = d
            · subst hc2d
              simp
            · simpa [mapUpd_other gs d _ hc2d] using hg2
        · simp only [List.mem_singleton] at he
          subst he
          exact Or.inr ⟨d, rfl, by simp⟩
      · -- bound
        exact hbound'
      · -- phi
        have hsum := sum_gTerm_upd gs (v := vcur + 1) hdCells
        have hterm : gTerm rows cols (mapUpd gs d (vcur + 1)) d = (vcur + 1).toNat := by
          simp [gTerm]
        have hnewb : (vcur + 1).toNat + 1 ≤ gCard rows cols (mapUpd gs d (vcur + 1)) :=
          (hbound' d (vcur + 1) (by simp)).2
        have hcardN := gCard_le rows cols (mapUpd gs d (vcur + 1))
        rcases hold.2 with hnone | ⟨w, hw, hlt⟩
        · have hnone' : gs d = none := hold.1.trans hnone
          have htg : gTerm rows cols gs d = rows.toNat * cols.toNat := by
            simp [gTerm, hnone']
          unfold phi at phiLe ⊢
          simp only [List.length_append, List.length_singleton]
          omega
        · have hsome' : gs d = some w := hold.1.trans hw
          have htg : gTerm rows cols gs d = w.toNat := by
            simp [gTerm, hsome']
          unfold phi at phiLe ⊢
          simp only [List.length_append, List.length_singleton]
          omega
      · -- monotone decrease
        intro c w hc
        simp only at hc
        by_cases hcd : c = d
        · subst hcd
          rcases hold.2 with hnone | ⟨w', hw', hlt⟩
          · rw [hold.1.trans hnone] at hc
            exact absurd hc (by simp)
          · rw [hold.1.trans hw'] at hc
            injection hc with hv
            subst hv
            exact ⟨vcur + 1, by simp, by omega⟩
        · exact ⟨w, by simpa [mapUpd_other gs d _ hcd] using hc, le_refl w⟩
      · -- d now has a g value at most vcur + 1
        intro _ _
        exact ⟨vcur + 1, by simp, le_refl _⟩
    · -- the neighbor is not relaxed: only the details list changes
      have hstep : expandStep grid rows cols goal cur (dl, gs, os, cf) d =
          (dl ++ [(d, vcur + 1, heuristic d goal, vcur + 1 + heuristic d goal)],
            gs, os, cf) := by
        simp only [expandStep, if_pos hcond, if_neg hrel, htent]
      rw [hstep]
      refine ⟨⟨gsCur, ?_, osOld, osNew, bound, phiLe⟩, ?_, ?_⟩
      · intro c
        rcases evolve c with ⟨h1, h2⟩ | ⟨m1, m2, m3, m4, m5, m6, m7⟩
        · exact Or.inl ⟨h1, h2⟩
        · exact Or.inr ⟨m1, m2, m3, m4, m5, m6, m7⟩
      · intro c w hc
        exact ⟨w, hc, le_refl w⟩
      · intro _ _
        push_neg at hrel
        obtain ⟨hs, hge⟩ := hrel
        rcases hgd : gs d with _ | w
        · rw [hgd] at hs
          simp at hs
        · refine ⟨w, hgd, ?_⟩
          rw [hgd] at hge
          simp only [Option.getD_some] at hge
          omega
  · -- out of bounds or wall: nothing happens
    have hstep : expandStep grid rows cols goal cur (dl, gs, os, cf) d = (dl, gs, os, cf) := by
      simp only [expandStep, if_neg hcond]
    rw [hstep]
    refine ⟨⟨gsCur, evolve, osOld, osNew, bound, phiLe⟩, ?_, ?_⟩
    · intro c w hc
      exact ⟨w, hc, le_refl w⟩
    · intro hB hO
      exact absurd ((expandStep_cond_iff grid rows cols d).mpr ⟨hB, hO⟩) hcond

theorem expandFold_inv {grid : List (List ℕ)} {rows cols : ℤ} {goal cur : Cell} {vcur : ℤ}
    {gs0 : Cell → Option ℤ} {os0 : List Entry} {cf0 : Cell → Option Cell} :
    ∀ (lst : List Cell) (acc : FoldState), (∀ d ∈ lst, d ∈ nbrsOf cur) →
    EInv grid rows cols goal cur vcur gs0 os0 cf0 acc →
    EInv grid rows cols goal cur vcur gs0 os0 cf0
        (lst.foldl (expandStep grid rows cols goal cur) acc) ∧
    (∀ c w, acc.2.1 c = some w →
      ∃ w', (lst.foldl (expandStep grid rows cols goal cur) acc).2.1 c = some w' ∧ w' ≤ w) ∧
    (∀ d ∈ lst, inBounds rows cols d → isOpen grid d →
      ∃ w, (lst.foldl (expandStep grid rows cols goal cur) acc).2.1 d = some w ∧
        w ≤ vcur + 1) := by
  intro lst
  induction lst with
  | nil =>
    intro acc _ hI
    refine ⟨hI, ?_, ?_⟩
    · intro c w hc
      exact ⟨w, hc, le_refl w⟩
    · intro d hd
      simp at hd
  | cons x xs ih =>
    intro acc hmem hI
    have hx : x ∈ nbrsOf cur := hmem x (List.mem_cons_self x xs)
    obtain ⟨hI', hmono', hproc'⟩ := expandStep_inv hx hI
    have hxs : ∀ d ∈ xs, d ∈ nbrsOf cur := fun d hd => hmem d (List.mem_cons_of_mem x hd)
    obtain ⟨hIf, hmonof, hprocf⟩ := ih (expandStep grid rows cols goal cur acc x) hxs hI'
    simp only [List.foldl_cons]
    refine ⟨hIf, ?_, ?_⟩
    · intro c w hc
      obtain ⟨w1, hw1, hle1⟩ := hmono' c w hc
      obtain ⟨w2, hw2, hle2⟩ := hmonof c w1 hw1
      exact ⟨w2, hw2, le_trans hle2 hle1⟩
    · intro d hd hB hO
      rcases List.mem_cons.mp hd with rfl | hd
      · obtain ⟨w1, hw1, hle1⟩ := hproc' hB hO
        obtain ⟨w2, hw2, hle2⟩ := hmonof d w1 hw1
        exact ⟨w2, hw2, le_trans hle2 hle1⟩
      · exact hprocf d hd hB hO

/-- Full characterization of the neighbor loop of `astar`. -/
theorem expand_spec {grid : List (List ℕ)} {rows cols : ℤ} (goal : Cell) {cur : Cell} {vcur : ℤ}
    {gs0 : Cell → Option ℤ} (os0 : List Entry) (cf0 : Cell → Option Cell)
    (hcur : gs0 cur = some vcur)
    (hbound : ∀ c v, gs0 c = some v → 0 ≤ v ∧ v.toNat + 1 ≤ gCard rows cols gs0) :
    EInv grid rows cols goal cur vcur gs0 os0 cf0 (expand grid rows cols goal cur gs0 os0 cf0) ∧
    (∀ c w, gs0 c = some w →
      ∃ w', (expand grid rows cols goal cur gs0 os0 cf0).2.1 c = some w' ∧ w' ≤ w) ∧
    (∀ d ∈ nbrsOf cur, inBounds rows cols d → isOpen grid d →
      ∃ w, (expand grid rows cols goal cur gs0 os0 cf0).2.1 d = some w ∧ w ≤ vcur + 1) := by
  have hinit : EInv grid rows cols goal cur vcur gs0 os0 cf0 ([], gs0, os0, cf0) := by
    refine ⟨hcur, ?_, ?_, ?_, ?_, ?_⟩
    · intro c
      exact Or.inl ⟨rfl, rfl⟩
    · intro e he
      exact he
    · intro e he
      exact Or.inl he
    · exact hbound
    · exact le_refl _
  exact expandFold_inv (nbrsOf cur) ([], gs0, os0, cf0) (fun d hd => hd) hinit

/-! ### The main-loop invariant -/

/-- Invariant of the `while open_set` loop of `astar`. -/
structure LoopInv (grid : List (List ℕ)) (rows cols : ℤ) (start goal : Cell)
    (st : AState) : Prop where
  gStart : st.gScore start = some 0
  cfStart : st.cameFrom start = none
  gNonneg : ∀ c v, st.gScore c = some v → 0 ≤ v
  gKeys : ∀ c v, st.gScore c = some v → inBounds rows cols c ∧ isOpen grid c
  gSound : ∀ c v, st.gScore c = some v → reachB grid rows cols start v.toNat c = true
  cfEdge : ∀ c p, st.cameFrom c = some p → edgeTo grid rows cols p c
  cfG : ∀ c p, st.cameFrom c = some p →
    ∃ vc vp, st.gScore c = some vc ∧ st.gScore p = some vp ∧ vp < vc
  cfTotal : ∀ c v, st.gScore c = some v → c ≠ start → (st.cameFrom c).isSome
  entryG : ∀ f c, (f, c) ∈ st.openSet →
    (∃ v, st.gScore c = some v ∧ v + heuristic c goal ≤ f) ∨ (f = 0 ∧ c = start)
  expansion : ∀ c v, st.gScore c = some v →
    (∃ f, (f, c) ∈ st.openSet ∧ f ≤ v + heuristic c goal) ∨
    (∀ d ∈ nbrsOf c, inBounds rows cols d → isOpen grid d →
      ∃ w, st.gScore d = some w ∧ w ≤ v + 1)
  goalPending : st.gScore goal = none ∨ ∃ f, (f, goal) ∈ st.openSet
  gBound : ∀ c v, st.gScore c = some v → v.toNat + 1 ≤ gCard rows cols st.gScore
  stepsSearch : ∀ r ∈ st.steps, r.status = AStatus.Searching
  stepsFG : ∀ r ∈ st.steps, r.g + r.h ≤ r.f ∨ (r.f = 0 ∧ r.g = 0 ∧ r.node = start)

/-- The invariant holds for the initial state of `astar`. -/
theorem loopInv_init (grid : List (List ℕ)) (rows cols : ℤ) (start goal : Cell)
    (hb : inBounds rows cols start) (ho : isOpen grid start) :
    LoopInv grid rows cols start goal
      ⟨[((0 : ℤ), start)], mapUpd (fun _ => none) start 0, fun _ => none, []⟩ := by
  have hgs : ∀ c v, mapUpd (fun _ => none) start (0 : ℤ) c = some v → c = start ∧ v = 0 := by
    intro c v hc
    by_cases hcs : c = start
    · subst hcs
      rw [mapUpd_same] at hc
      injection hc with hv
      exact ⟨rfl, hv.symm⟩
    · rw [mapUpd_other _ _ _ hcs] at hc
      exact absurd hc (by simp)
  refine ⟨by simp, rfl, ?_, ?_, ?_, ?_, ?_, ?_, ?_, ?_, ?_, ?_, ?_, ?_⟩
  · intro c v hc
    obtain ⟨_, hv0⟩ := hgs c v hc
    omega
  · intro c v hc
    obtain ⟨hcs, _⟩ := hgs c v hc
    rw [hcs]
    exact ⟨hb, ho⟩
  · intro c v hc
    obtain ⟨hcs, hv0⟩ := hgs c v hc
    rw [hcs, hv0]
    exact reachB_zero.mpr rfl
  · intro c p hc
    simp at hc
  · intro c p hc
    simp at hc
  · intro c v hc hne
    obtain ⟨hcs, _⟩ := hgs c v hc
    exact absurd hcs hne
  · intro f c hfc
    simp only [List.mem_singleton, Prod.mk.injEq] at hfc
    exact Or.inr ⟨hfc.1, hfc.2⟩
  · intro c v hc
    obtain ⟨hcs, hv0⟩ := hgs c v hc
    refine Or.inl ⟨0, by simp [hcs], ?_⟩
    have := heuristic_nonneg c goal
    omega
  · by_cases hgoal : goal = start
    · exact Or.inr ⟨0, by simp [hgoal]⟩
    · refine Or.inl ?_
      show mapUpd (fun _ => none) start 0 goal = none
      rw [mapUpd_other _ _ _ hgoal]
  · intro c v hc
    obtain ⟨_, hv0⟩ := hgs c v hc
    have hpos : 0 < gCard rows cols (mapUpd (fun _ => none) start 0) := by
      refine Finset.card_pos.mpr ⟨start, ?_⟩
      simp [Finset.mem_filter, mem_cellsFinset.mpr hb]
    show v.toNat + 1 ≤ gCard rows cols (mapUpd (fun _ => none) start 0)
    omega
  · intro r hr
    simp at hr
  · intro r hr
    simp at hr

/-- One non-goal iteration of the A* loop preserves the invariant and
strictly decreases the potential. -/
theorem loopInv_step {grid : List (List ℕ)} {rows cols : ℤ} {start goal : Cell} {st : AState}
    {f0 : ℤ} {cur : Cell} {rest : List Entry}
    (hI : LoopInv grid rows cols start goal st)
    (hpop : popMin st.openSet = some ((f0, cur), rest)) (hne : cur ≠ goal) :
    ∃ vcur, st.gScore cur = some vcur ∧
      (vcur + heuristic cur goal ≤ f0 ∨ (f0 = 0 ∧ vcur = 0 ∧ cur = start)) ∧
      LoopInv grid rows cols start goal
        ⟨(expand grid rows cols goal cur st.gScore rest st.cameFrom).2.2.1,
         (expand grid rows cols goal cur st.gScore rest st.cameFrom).2.1,
         (expand grid rows cols goal cur st.gScore rest st.cameFrom).2.2.2,
         st.steps ++ [⟨cur, (st.gScore cur).getD 0, heuristic cur goal, f0,
           (expand grid rows cols goal cur st.gScore rest st.cameFrom).1,
           AStatus.Searching⟩]⟩ ∧
      phi rows cols (expand grid rows cols goal cur st.gScore rest st.cameFrom).2.2.1
          (expand grid rows cols goal cur st.gScore rest st.cameFrom).2.1 + 1 ≤
        phi rows cols st.openSet st.gScore := by
  obtain ⟨hmem, hmin, hperm⟩ := popMin_spec hpop
  have hrestmem : ∀ e ∈ rest, e ∈ st.openSet := by
    intro e he
    exact hperm.symm.mem_iff.mp (List.mem_cons_of_mem _ he)
  have hosmem : ∀ e ∈ st.openSet, e = (f0, cur) ∨ e ∈ rest := by
    intro e he
    exact List.mem_cons.mp (hperm.mem_iff.mp he)
  obtain ⟨vcur, hvcur, hfg⟩ :
      ∃ v, st.gScore cur = some v ∧
        (v + heuristic cur goal ≤ f0 ∨ (f0 = 0 ∧ v = 0 ∧ cur = start)) := by
    rcases hI.entryG f0 cur hmem with ⟨v, hv, hle⟩ | ⟨hf0, hcs⟩
    · exact ⟨v, hv, Or.inl hle⟩
    · refine ⟨0, ?_, Or.inr ⟨hf0, rfl, hcs⟩⟩
      rw [hcs]
      exact hI.gStart
  have hbound0 : ∀ c v, st.gScore c = some v →
      0 ≤ v ∧ v.toNat + 1 ≤ gCard rows cols st.gScore :=
    fun c v hc => ⟨hI.gNonneg c v hc, hI.gBound c v hc⟩
  obtain ⟨hE, hmono, hproc⟩ := expand_spec goal rest st.cameFrom hvcur hbound0
  rcases hEeq : expand grid rows cols goal cur st.gScore rest st.cameFrom
    with ⟨dl, gs', os', cf'⟩
  rw [hEeq] at hE hmono hproc
  simp only at hmono hproc
  obtain ⟨gsCur, evolve, osOld, osNew, bound, phiLe⟩ := hE
  simp only at gsCur osNew bound phiLe osOld
  have hcurB : inBounds rows cols cur ∧ isOpen grid cur := hI.gKeys cur vcur hvcur
  have hvc0 : 0 ≤ vcur := hI.gNonneg cur vcur hvcur
  have hedge : ∀ c, c ∈ nbrsOf cur → inBounds rows cols c → isOpen grid c →
      edgeTo grid rows cols cur c := by
    intro c hc hB hO
    exact ⟨hcurB.1, hB, hcurB.2, hO, mem_nbrsOf_dist hc⟩
  have hgetD : (st.gScore cur).getD 0 = vcur := by rw [hvcur]; rfl
  simp only
  refine ⟨vcur, hvcur, hfg, ?_, ?_⟩
  · refine ⟨?_, ?_, ?_, ?_, ?_, ?_, ?_, ?_, ?_, ?_, ?_, ?_, ?_, ?_⟩
    · -- gStart
      show gs' start = some 0
      rcases evolve start with ⟨h1, _⟩ | ⟨_, _, _, _, _, _, h7⟩
      · simp only at h1
        rw [h1]
        exact hI.gStart
      · exfalso
        rcases h7 with h | ⟨w, hw, hlt⟩
        · rw [hI.gStart] at h
          exact Option.noConfusion h
        · rw [hI.gStart] at hw
          injection hw with hw
          omega
    · -- cfStart
      show cf' start = none
      rcases evolve start with ⟨_, h2⟩ | ⟨_, _, _, _, _, _, h7⟩
      · simp only at h2
        rw [h2]
        exact hI.cfStart
      · exfalso
        rcases h7 with h | ⟨w, hw, hlt⟩
        · rw [hI.gStart] at h
          exact Option.noConfusion h
        · rw [hI.gStart] at hw
          injection hw with hw
          omega
    · -- gNonneg
      intro c v hc
      exact (bound c v hc).1
    · -- gKeys
      intro c v hc
      simp only at hc
      rcases evolve c with ⟨h1, _⟩ | ⟨_, hB, hO, _, _, _, _⟩
      · simp only at h1
        rw [h1] at hc
        exact hI.gKeys c v hc
      · exact ⟨hB, hO⟩
    · -- gSound
      intro c v hc
      simp only at hc
      rcases evolve c with ⟨h1, _⟩ | ⟨hn, hB, hO, h4, _, _, _⟩
      · simp only at h1
        rw [h1] at hc
        exact hI.gSound c v hc
      · simp only at h4
        rw [h4] at hc
        injection hc with hv
        subst hv
        have hr := hI.gSound cur vcur hvcur
        have hstep := reachB_step hr (hedge c hn hB hO)
        have hnat : (vcur + 1).toNat = vcur.toNat + 1 := by omega
        rw [hnat]
        exact hstep
    · -- cfEdge
      intro c p hc
      simp only at hc
      rcases evolve c with ⟨_, h2⟩ | ⟨hn, hB, hO, _, h5, _, _⟩
      · simp only at h2
        rw [h2] at hc
        exact hI.cfEdge c p hc
      · simp only at h5
        rw [h5] at hc
        injection hc with hp
        subst hp
        exact hedge c hn hB hO
    · -- cfG
      intro c p hc
      simp only at hc ⊢
      rcases evolve c with ⟨h1, h2⟩ | ⟨_, _, _, h4, h5, _, _⟩
      · simp only at h1 h2
        rw [h2] at hc
        obtain ⟨vc, vp, hvc, hvp, hlt⟩ := hI.cfG c p hc
        obtain ⟨vp', hvp', hple⟩ := hmono p vp hvp
        refine ⟨vc, vp', ?_, hvp', by omega⟩
        rw [h1]
        exact hvc
      · simp only at h4 h5
        rw [h5] at hc
        injection hc with hp
        subst hp
        exact ⟨vcur + 1, vcur, h4, gsCur, by omega⟩
    · -- cfTotal
      intro c v hc hcs
      simp only at hc ⊢
      rcases evolve c with ⟨h1, h2⟩ | ⟨_, _, _, _, h5, _, _⟩
      · simp only at h1 h2
        rw [h1] at hc
        rw [h2]
        exact hI.cfTotal c v hc hcs
      · simp only at h5
        rw [h5]
        rfl
    · -- entryG
      intro f c hfc
      simp only at hfc ⊢
      rcases osNew (f, c) hfc with hold | ⟨c2, hc2, hg2⟩
      · rcases hI.entryG f c (hrestmem _ hold) with ⟨v, hv, hle⟩ | hseed
        · obtain ⟨v', hv', hle'⟩ := hmono c v hv
          exact Or.inl ⟨v', hv', by omega⟩
        · exact Or.inr hseed
      · injection hc2 with hf hc2'
        subst hf
        subst hc2'
        exact Or.inl ⟨vcur + 1, hg2, by omega⟩
    · -- expansion
      intro c v hc
      simp only at hc ⊢
      by_cases hccur : c = cur
      · subst hccur
        have hveq : v = vcur := by
          rw [gsCur] at hc
          injection hc with h
          exact h.symm
        subst hveq
        exact Or.inr hproc
      · rcases evolve c with ⟨h1, _⟩ | ⟨_, _, _, h4, _, h6, _⟩
        · simp only at h1
          rw [h1] at hc
          rcases hI.expansion c v hc with ⟨f, hf, hle⟩ | hrelax
          · rcases hosmem _ hf with heq | hr
            · exfalso
              injection heq with _ h2
              exact hccur h2
            · exact Or.inl ⟨f, osOld _ hr, hle⟩
          · refine Or.inr ?_
            intro d hd hB hO
            obtain ⟨w, hw, hwle⟩ := hrelax d hd hB hO
            obtain ⟨w', hw', hle'⟩ := hmono d w hw
            exact ⟨w', hw', by omega⟩
        · simp only at h4 h6
          have hveq : v = vcur + 1 := by
            rw [h4] at hc
            injection hc with h
            exact h.symm
          subst hveq
          exact Or.inl ⟨vcur + 1 + heuristic c goal, h6, by omega⟩
    · -- goalPending
      simp only
      rcases hI.goalPending with hnone | ⟨f, hf⟩
      · rcases evolve goal with ⟨h1, _⟩ | ⟨_, _, _, _, _, h6, _⟩
        · simp only at h1
          rw [h1]
          exact Or.inl hnone
        · simp only at h6
          exact Or.inr ⟨vcur + 1 + heuristic goal goal, h6⟩
      · rcases hosmem _ hf with heq | hr
        · exfalso
          injection heq with _ h2
          exact hne h2.symm
        · exact Or.inr ⟨f, osOld _ hr⟩
    · -- gBound
      intro c v hc
      exact (bound c v hc).2
    · -- stepsSearch
      intro r hr
      simp only at hr
      rcases List.mem_append.mp hr with hr | hr
      · exact hI.stepsSearch r hr
      · simp only [List.mem_singleton] at hr
        subst hr
        rfl
    · -- stepsFG
      intro r hr
      simp only at hr
      rcases List.mem_append.mp hr with hr | hr
      · exact hI.stepsFG r hr
      · simp only [List.mem_singleton] at hr
        subst hr
        simp only [hgetD]
        rcases hfg with hle | ⟨hf0, hv0, hcs⟩
        · exact Or.inl hle
        · exact Or.inr ⟨hf0, hv0, hcs⟩
  · -- the potential strictly decreases
    have hlen : st.openSet.length = rest.length + 1 := by
      have := hperm.length_eq
      simpa using this
    unfold phi at phiLe ⊢
    omega

/-! ### Path reconstruction -/

/-- Behavior of the `while current in came_from` loop under the invariant:
with enough fuel it walks back to `start`, producing a chained path. -/
theorem reconLoop_spec {grid : List (List ℕ)} {rows cols : ℤ} {start : Cell}
    {gs : Cell → Option ℤ} {cf : Cell → Option Cell}
    (hgStart : gs start = some 0)
    (hNonneg : ∀ c v, gs c = some v → 0 ≤ v)
    (hcfEdge : ∀ c p, cf c = some p → edgeTo grid rows cols p c)
    (hcfG : ∀ c p, cf c = some p → ∃ vc vp, gs c = some vc ∧ gs p = some vp ∧ vp < vc)
    (hcfTotal : ∀ c v, gs c = some v → c ≠ start → (cf c).isSome) :
    ∀ (fuel : ℕ) (cur : Cell) (vcur : ℤ) (acc : List Cell), gs cur = some vcur →
      vcur.toNat < fuel →
      ∃ l : List Cell, reconLoop cf fuel cur acc = (acc ++ l, start) ∧
        (l ++ [start]).Chain' (fun a b => edgeTo grid rows cols b a) ∧
        (l ++ [start]).head? = some cur ∧
        (l ++ [start]).length ≤ vcur.toNat + 1 := by
  intro fuel
  induction fuel with
  | zero =>
    intro cur vcur acc _ hlt
    omega
  | succ fuel ih =>
    intro cur vcur acc hcur hlt
    rcases hcf : cf cur with _ | p
    · -- no predecessor: cur must be start
      have hcs : cur = start := by
        by_contra hne
        have := hcfTotal cur vcur hcur hne
        rw [hcf] at this
        exact Bool.noConfusion this
      subst hcs
      refine ⟨[], ?_, by simp, by simp, by simp⟩
      simp [reconLoop, hcf]
    · -- follow the predecessor
      obtain ⟨vc, vp, hvc, hvp, hlt'⟩ := hcfG cur p hcf
      have hvceq : vc = vcur := by
        rw [hcur] at hvc
        injection hvc with h
        exact h.symm
      subst hvceq
      have hvp0 : 0 ≤ vp := hNonneg p vp hvp
      have hplt : vp.toNat < fuel := by omega
      obtain ⟨l', hl', hch', hh', hlen'⟩ := ih p vp (acc ++ [cur]) hvp hplt
      refine ⟨cur :: l', ?_, ?_, by simp, ?_⟩
      · have : reconLoop cf (fuel + 1) cur acc = reconLoop cf fuel p (acc ++ [cur]) := by
          simp [reconLoop, hcf]
        rw [this, hl']
        simp
      · rw [List.cons_append, List.chain'_cons']
        constructor
        · intro b hb
          rw [hh'] at hb
          simp only [Option.mem_def, Option.some.injEq] at hb
          subst hb
          exact hcfEdge cur _ hcf
        · exact hch'
      · simp only [List.cons_append, List.length_cons]
        omega

/-! ### Optimality of the popped goal -/

/-- Along a fixed shortest path, either the frontier holds an entry with
`f`-value at most the shortest distance, or the goal's `g` value is at most
the shortest distance. -/
theorem path_argument {grid : List (List ℕ)} {rows cols : ℤ} {start goal : Cell} {st : AState}
    (hI : LoopInv grid rows cols start goal st)
    (hex : ∃ n, reachB grid rows cols start n goal = true) :
    (∃ fe c, (fe, c) ∈ st.openSet ∧ fe ≤ (Nat.find hex : ℤ)) ∨
    (∃ w, st.gScore goal = some w ∧ w ≤ (Nat.find hex : ℤ)) := by
  set k := Nat.find hex with hk
  have hreach : reachB grid rows cols start k goal = true := Nat.find_spec hex
  obtain ⟨l, hch, hh, hlast, hlen, hne⟩ := reachB_extract hreach
  -- the extracted path has exactly k edges, by minimality of k
  have hlen' : l.length = k + 1 := by
    have h1 := reachB_of_chain hch hh hlast
    have h2 : k ≤ l.length - 1 := by
      by_contra hcon
      push_neg at hcon
      exact Nat.find_min hex (by omega) h1
    have h3 : 0 < l.length := List.length_pos.mpr hne
    omega
  have hget0 : l.get ⟨0, by omega⟩ = start := by
    rcases l with _ | ⟨a, l'⟩
    · simp at hne
    · simp only [List.head?_cons, Option.some.injEq] at hh
      simp [hh]
  have hklt : k < l.length := by omega
  have hgetlast : l.get ⟨k, hklt⟩ = goal := by
    rw [List.getLast?_eq_getElem? l] at hlast
    have hidx : l.length - 1 = k := by omega
    rw [hidx] at hlast
    rw [List.getElem?_eq_getElem hklt] at hlast
    injection hlast
  -- induction along the path
  have key : ∀ i (hi : i < l.length),
      (∃ fe c, (fe, c) ∈ st.openSet ∧ fe ≤ (k : ℤ)) ∨
      (∃ w, st.gScore (l.get ⟨i, hi⟩) = some w ∧ w ≤ (i : ℤ)) := by
    intro i
    induction i with
    | zero =>
      intro hi
      refine Or.inr ⟨0, ?_, by simp⟩
      rw [hget0]
      exact hI.gStart
    | succ i ihp =>
      intro hi
      rcases ihp (by omega) with hleft | ⟨w, hw, hwle⟩
      · exact Or.inl hleft
      · -- use the expansion invariant at l.get i
        rcases hI.expansion _ w hw with ⟨f, hf, hfle⟩ | hrelax
        · refine Or.inl ⟨f, l.get ⟨i, by omega⟩, hf, ?_⟩
          have hheur := chain_heuristic_bound hch hlast i (by omega)
          have hcast : ((l.length - 1 - i : ℕ) : ℤ) = (k : ℤ) - (i : ℤ) := by
            omega
          rw [hcast] at hheur
          omega
        · have hstep := (List.chain'_iff_get.mp hch) i (by omega)
          have hmem : l.get ⟨i + 1, hi⟩ ∈ nbrsOf (l.get ⟨i, by omega⟩) :=
            edgeTo_mem_nbrsOf (edgeTo_symm hstep)
          obtain ⟨_, hB, _, hO, _⟩ := hstep
          obtain ⟨w', hw', hwle'⟩ := hrelax _ hmem hB hO
          refine Or.inr ⟨w', hw', ?_⟩
          push_cast
          omega
  rcases key k hklt with hleft | ⟨w, hw, hwle⟩
  · exact Or.inl hleft
  · rw [hgetlast] at hw
    exact Or.inr ⟨w, hw, hwle⟩

/-- While a path to the goal exists and the invariant holds, the frontier
cannot be empty. -/
theorem queue_nonempty {grid : List (List ℕ)} {rows cols : ℤ} {start goal : Cell} {st : AState}
    (hI : LoopInv grid rows cols start goal st)
    (hex : ∃ n, reachB grid rows cols start n goal = true) :
    st.openSet ≠ [] := by
  intro hempty
  rcases path_argument hI hex with ⟨fe, c, hfc, _⟩ | ⟨w, hw, _⟩
  · rw [hempty] at hfc
    simp at hfc
  · rcases hI.goalPending with hnone | ⟨f, hf⟩
    · rw [hnone] at hw
      exact Option.noConfusion hw
    · rw [hempty] at hf
      simp at hf

/-- When the goal is popped, its `g` value is exactly the shortest distance. -/
theorem goalPop_opt {grid : List (List ℕ)} {rows cols : ℤ} {start goal : Cell} {st : AState}
    {f0 : ℤ} {rest : List Entry}
    (hI : LoopInv grid rows cols start goal st)
    (hpop : popMin st.openSet = some ((f0, goal), rest))
    (hex : ∃ n, reachB grid rows cols start n goal = true) :
    st.gScore goal = some ((Nat.find hex : ℕ) : ℤ) := by
  set k := Nat.find hex with hk
  obtain ⟨hmem, hmin, _⟩ := popMin_spec hpop
  have hsound : ∀ w, st.gScore goal = some w → (k : ℤ) ≤ w := by
    intro w hw
    have hr := hI.gSound goal w hw
    have hge : k ≤ w.toNat := by
      by_contra hcon
      push_neg at hcon
      exact Nat.find_min hex hcon hr
    have := hI.gNonneg goal w hw
    omega
  rcases path_argument hI hex with ⟨fe, c, hfc, hfel⟩ | ⟨w, hw, hwle⟩
  · -- the popped entry was the global minimum, so f0 ≤ k
    have hf0le : f0 ≤ fe := entryLe_fst (hmin _ hfc)
    rcases hI.entryG f0 goal hmem with ⟨v, hv, hvle⟩ | ⟨hf0, hgs⟩
    · rw [heuristic_self] at hvle
      have := hsound v hv
      have hveq : v = (k : ℤ) := by omega
      rw [← hveq]
      exact hv
    · -- the seed entry: goal = start and k = 0
      have hreach0 : reachB grid rows cols start 0 goal = true := by
        rw [reachB_zero]
        exact hgs
      have hk0 : k = 0 := by
        have := Nat.find_le (h := hex) hreach0
        omega
      rw [hgs, hk0]
      exact hI.gStart
  · have := hsound w hw
    have hweq : w = (k : ℤ) := by omega
    rw [← hweq]
    exact hw

/-! ### Master soundness lemma for the main loop -/

/-- Unconditional soundness of every completed run of the A* loop:
the trace satisfies the record invariants, all records but a final
`GoalReached` one are `Searching`, and a returned path is a valid open
path from `start` to `goal` whose terminal record carries `node = start`
and an empty neighbor list. -/
theorem loopA_sound {grid : List (List ℕ)} {rows cols : ℤ} {start goal : Cell}
    {reconFuel : ℕ} (hrecon : rows.toNat * cols.toNat < reconFuel) :
    ∀ (fuel : ℕ) (st : AState) (pOpt : Option (List Cell)) (tr : List StepRecord),
    LoopInv grid rows cols start goal st →
    loopA grid rows cols start goal reconFuel fuel st = some (pOpt, tr) →
    (∀ r ∈ tr, r.g + r.h ≤ r.f ∨ (r.f = 0 ∧ r.g = 0 ∧ r.node = start)) ∧
    (pOpt = none → ∀ r ∈ tr, r.status = AStatus.Searching) ∧
    (∀ p, pOpt = some p →
      ∃ pre final, tr = pre ++ [final] ∧
        (∀ r ∈ pre, r.status = AStatus.Searching) ∧
        final.status = AStatus.GoalReached ∧ final.neighbors = [] ∧ final.node = start ∧
        p.Chain' (edgeTo grid rows cols) ∧ p.head? = some start ∧ p.getLast? = some goal ∧
        0 ≤ final.g ∧ p.length ≤ final.g.toNat + 1) := by
  intro fuel
  induction fuel with
  | zero =>
    intro st pOpt tr _ hrun
    exact absurd hrun (by simp [loopA])
  | succ fuel ih =>
    intro st pOpt tr hI hrun
    rcases hpop : popMin st.openSet with _ | ⟨⟨curF, current⟩, rest⟩
    · -- empty frontier: return (None, steps)
      simp only [loopA, hpop] at hrun
      injection hrun with hrun
      injection hrun with h1 h2
      subst h1
      subst h2
      refine ⟨hI.stepsFG, fun _ => hI.stepsSearch, ?_⟩
      intro p hp
      exact Option.noConfusion hp
    · by_cases hcg : current = goal
      · -- goal popped: reconstruct and return
        obtain ⟨hmem, _, _⟩ := popMin_spec hpop
        obtain ⟨vg, hvg, hfg⟩ :
            ∃ v, st.gScore current = some v ∧
              (v + heuristic current goal ≤ curF ∨
                (curF = 0 ∧ v = 0 ∧ current = start)) := by
          rcases hI.entryG curF current hmem with ⟨v, hv, hle⟩ | ⟨hf0, hcs⟩
          · exact ⟨v, hv, Or.inl hle⟩
          · refine ⟨0, ?_, Or.inr ⟨hf0, rfl, hcs⟩⟩
            rw [hcs]
            exact hI.gStart
        have hvg0 : 0 ≤ vg := hI.gNonneg current vg hvg
        have hvglt : vg.toNat < reconFuel := by
          have h1 := hI.gBound current vg hvg
          have h2 := gCard_le rows cols st.gScore
          omega
        obtain ⟨l, hrl, hch, hhd, hlen⟩ := reconLoop_spec hI.gStart hI.gNonneg
          hI.cfEdge hI.cfG hI.cfTotal reconFuel current vg [] hvg hvglt
        simp only [List.nil_append] at hrl
        simp only [loopA, hpop, if_pos hcg, hrl] at hrun
        injection hrun with hrun
        injection hrun with h1 h2
        have hgetD : (st.gScore current).getD 0 = vg := by rw [hvg]; rfl
        refine ⟨?_, ?_, ?_⟩
        · intro r hr
          rw [← h2] at hr
          rcases List.mem_append.mp hr with hr | hr
          · exact hI.stepsFG r hr
          · simp only [List.mem_singleton] at hr
            subst hr
            simp only [hgetD]
            rcases hfg with hle | ⟨hf0, hv0, hcs⟩
            · exact Or.inl hle
            · exact Or.inr ⟨hf0, hv0, trivial⟩
        · intro hnone
          rw [← h1] at hnone
          exact Option.noConfusion hnone
        · intro p hp
          rw [← h1] at hp
          injection hp with hp
          refine ⟨st.steps, _, h2.symm, hI.stepsSearch, rfl, rfl, rfl, ?_, ?_, ?_, ?_, ?_⟩
          · -- the reversed chain is an edge path
            rw [← hp, List.chain'_reverse]
            exact hch
          · rw [← hp, List.head?_reverse]
            exact List.getLast?_concat l
          · rw [← hp, List.getLast?_reverse, hhd, hcg]
          · simpa [hgetD] using hvg0
          · rw [← hp]
            simp only [List.length_reverse]
            simpa [hgetD] using hlen
      · -- ordinary expansion step
        obtain ⟨vcur, hvcur, _, hInext, _⟩ := loopInv_step hI hpop hcg
        rcases hEeq : expand grid rows cols goal current st.gScore rest st.cameFrom
          with ⟨dl, gs', os', cf'⟩
        rw [hEeq] at hInext
        simp only at hInext
        simp only [loopA, hpop, if_neg hcg, hEeq] at hrun
        exact ih _ pOpt tr hInext hrun

/-- Optimality and completion: when a path to the goal exists and the fuel
dominates the potential, the loop returns a path of exactly the shortest
length (in cells: shortest edge count plus one). -/
theorem loopA_opt {grid : List (List ℕ)} {rows cols : ℤ} {start goal : Cell}
    {reconFuel : ℕ} (hrecon : rows.toNat * cols.toNat < reconFuel)
    (hex : ∃ n, reachB grid rows cols start n goal = true) :
    ∀ (fuel : ℕ) (st : AState),
    LoopInv grid rows cols start goal st →
    phi rows cols st.openSet st.gScore < fuel →
    ∃ p tr, loopA grid rows cols start goal reconFuel fuel st = some (some p, tr) ∧
      p.length = Nat.find hex + 1 := by
  intro fuel
  induction fuel with
  | zero =>
    intro st _ hphi
    omega
  | succ fuel ih =>
    intro st hI hphi
    rcases hpop : popMin st.openSet with _ | ⟨⟨curF, current⟩, rest⟩
    · exact absurd (popMin_eq_none hpop) (queue_nonempty hI hex)
    · by_cases hcg : current = goal
      · -- the goal is popped with an optimal g value
        have hpop' : popMin st.openSet = some ((curF, goal), rest) := by
          rw [← hcg]
          exact hpop
        have hgk : st.gScore goal = some ((Nat.find hex : ℕ) : ℤ) :=
          goalPop_opt hI hpop' hex
        have hvg : st.gScore current = some ((Nat.find hex : ℕ) : ℤ) := by
          rw [hcg]
          exact hgk
        have hvglt : ((Nat.find hex : ℕ) : ℤ).toNat < reconFuel := by
          have h1 := hI.gBound current _ hvg
          have h2 := gCard_le rows cols st.gScore
          omega
        obtain ⟨l, hrl, hch, hhd, hlen⟩ := reconLoop_spec hI.gStart hI.gNonneg
          hI.cfEdge hI.cfG hI.cfTotal reconFuel current _ [] hvg hvglt
        simp only [List.nil_append] at hrl
        refine ⟨(l ++ [start]).reverse, st.steps ++
          [⟨start, (st.gScore current).getD 0, heuristic current goal, curF, [],
            AStatus.GoalReached⟩], ?_, ?_⟩
        · simp only [loopA, hpop, if_pos hcg, hrl]
        · -- upper and lower bounds on the path length
          have hchain : ((l ++ [start]).reverse).Chain' (edgeTo grid rows cols) := by
            rw [List.chain'_reverse]
            exact hch
          have hhead : ((l ++ [start]).reverse).head? = some start := by
            rw [List.head?_reverse]
            exact List.getLast?_concat l
          have hlast : ((l ++ [start]).reverse).getLast? = some goal := by
            rw [List.getLast?_reverse, hhd, hcg]
          have hreach' := reachB_of_chain hchain hhead hlast
          have hlow : Nat.find hex ≤ (l ++ [start]).reverse.length - 1 :=
            Nat.find_le (h := hex) hreach'
          have hup : (l ++ [start]).length ≤ Nat.find hex + 1 := by
            have : ((Nat.find hex : ℕ) : ℤ).toNat = Nat.find hex := by omega
            omega
          have hpos : 0 < (l ++ [start]).length := by
            simp
          simp only [List.length_reverse] at *
          omega
      · -- ordinary step: apply the induction hypothesis
        obtain ⟨vcur, hvcur, _, hInext, hphidec⟩ := loopInv_step hI hpop hcg
        rcases hEeq : expand grid rows cols goal current st.gScore rest st.cameFrom
          with ⟨dl, gs', os', cf'⟩
        rw [hEeq] at hInext hphidec
        simp only at hInext hphidec
        have hphi' : phi rows cols os' gs' < fuel := by omega
        obtain ⟨p, tr, hrun, hplen⟩ := ih _ hInext hphi'
        refine ⟨p, tr, ?_, hplen⟩
        simp only [loopA, hpop, if_neg hcg, hEeq]
        exact hrun

/-! ### Bridging `astar` to the master lemmas -/

theorem rows_toNat (grid : List (List ℕ)) : ((grid.length : ℤ)).toNat = grid.length :=
  Int.toNat_ofNat _

theorem cols_toNat (grid : List (List ℕ)) :
    (((grid.headD []).length : ℤ)).toNat = (grid.headD []).length :=
  Int.toNat_ofNat _

theorem size_eq (grid : List (List ℕ)) :
    ((grid.length : ℤ)).toNat * (((grid.headD []).length : ℤ)).toNat = gridSize grid := by
  rw [rows_toNat, cols_toNat]
  rfl

/-- The initial potential is below the fuel supplied by `astar`. -/
theorem phi_init_lt (grid : List (List ℕ)) (start : Cell) :
    phi (grid.length : ℤ) ((grid.headD []).length : ℤ) [((0 : ℤ), start)]
      (mapUpd (fun _ => none) start 0) < gridSize grid * gridSize grid + 2 := by
  set rows : ℤ := (grid.length : ℤ)
  set cols : ℤ := ((grid.headD []).length : ℤ)
  have hN : rows.toNat * cols.toNat = gridSize grid := size_eq grid
  have hterm : ∀ c ∈ cellsFinset rows cols,
      gTerm rows cols (mapUpd (fun _ => none) start 0) c ≤ rows.toNat * cols.toNat := by
    intro c _
    by_cases hc : c = start
    · subst hc
      simp [gTerm]
    · simp [gTerm, mapUpd_other _ _ _ hc]
  have hsum := Finset.sum_le_card_nsmul (cellsFinset rows cols)
    (gTerm rows cols (mapUpd (fun _ => none) start 0)) (rows.toNat * cols.toNat) hterm
  rw [card_cellsFinset] at hsum
  simp only [smul_eq_mul] at hsum
  rw [hN] at hsum
  have hd : (∑ c ∈ cellsFinset rows cols, gTerm rows cols (mapUpd (fun _ => none) start 0) c) =
      (cellsFinset rows cols).sum (gTerm rows cols (mapUpd (fun _ => none) start 0)) := rfl
  unfold phi
  simp only [List.length_singleton]
  omega

/-! ### Claims about `astar` -/

/--
**C1** (search optimality): for every grid and in-bounds open `start` and
`goal` joined by some path of 4-adjacent open cells, `astar` returns a
non-absent path whose number of cells is the true shortest-path length:
`Nat.find hex` is the least number of unit edges found by the independent
breadth-first reachability `reachB`, so the shortest path has
`Nat.find hex + 1` cells.
-/
theorem astar_optimal (grid : List (List ℕ)) (start goal : Cell)
    (hsB : inBounds (grid.length : ℤ) ((grid.headD []).length : ℤ) start)
    (hsO : isOpen grid start)
    (_hgB : inBounds (grid.length : ℤ) ((grid.headD []).length : ℤ) goal)
    (_hgO : isOpen grid goal)
    (hex : ∃ n, reachB grid (grid.length : ℤ) ((grid.headD []).length : ℤ) start n goal = true) :
    ∃ p tr, astar grid start goal = some (some p, tr) ∧ p.length = Nat.find hex + 1 := by
  have hrecon : ((grid.length : ℤ)).toNat * (((grid.headD []).length : ℤ)).toNat <
      gridSize grid + 1 := by
    rw [size_eq]
    omega
  have hI := loopInv_init grid (grid.length : ℤ) ((grid.headD []).length : ℤ)
    start goal hsB hsO
  have hphi := phi_init_lt grid start
  obtain ⟨p, tr, hrun, hlen⟩ := loopA_opt hrecon hex (gridSize grid * gridSize grid + 2)
    ⟨[((0 : ℤ), start)], mapUpd (fun _ => none) start 0, fun _ => none, []⟩ hI hphi
  exact ⟨p, tr, hrun, hlen⟩

/--
**C2** (path validity): whenever `astar` returns a non-absent path for
in-bounds open endpoints, every consecutive pair of its cells forms a unit
edge (4-adjacent, both in bounds and open), its first element is `start`
and its last is `goal`.
-/
theorem astar_path_valid (grid : List (List ℕ)) (start goal : Cell)
    (hsB : inBounds (grid.length : ℤ) ((grid.headD []).length : ℤ) start)
    (hsO : isOpen grid start)
    (_hgB : inBounds (grid.length : ℤ) ((grid.headD []).length : ℤ) goal)
    (_hgO : isOpen grid goal)
    (p : List Cell) (tr : List StepRecord)
    (h : astar grid start goal = some (some p, tr)) :
    p.Chain' (edgeTo grid (grid.length : ℤ) ((grid.headD []).length : ℤ)) ∧
      p.head? = some start ∧ p.getLast? = some goal := by
  have hrecon : ((grid.length : ℤ)).toNat * (((grid.headD []).length : ℤ)).toNat <
      gridSize grid + 1 := by
    rw [size_eq]
    omega
  have hI := loopInv_init grid (grid.length : ℤ) ((grid.headD []).length : ℤ)
    start goal hsB hsO
  obtain ⟨_, _, hsome⟩ := loopA_sound hrecon (gridSize grid * gridSize grid + 2)
    ⟨[((0 : ℤ), start)], mapUpd (fun _ => none) start 0, fun _ => none, []⟩ (some p) tr hI h
  obtain ⟨pre, final, _, _, _, _, _, hchain, hhead, hlast, _, _⟩ := hsome p rfl
  exact ⟨hchain, hhead, hlast⟩

/--
**C3** (counterexample): on the 1×2 all-open grid with `start = (0,0)` and
`goal = (0,1)`, the terminal `GoalReached` record's `node` field is
`(0,0)` — the `current` variable after the reconstruction walk, i.e. the
start cell — not the popped goal cell `(0,1)` as the claim states.
-/
theorem astar_c3_counterexample :
    astar [[0, 0]] (0, 0) (0, 1) =
      some (some [(0, 0), (0, 1)],
        [⟨(0, 0), 0, 1, 0, [((0, 1), 1, 0, 1)], AStatus.Searching⟩,
         ⟨(0, 0), 1, 0, 1, [], AStatus.GoalReached⟩]) ∧
    (((0 : ℤ), (0 : ℤ)) : Cell) ≠ ((0 : ℤ), (1 : ℤ)) := by
  constructor
  · decide
  · decide

/--
**C3** (amended): on the first pop of the goal cell, `astar` emits exactly
one terminal `StepRecord` with status `GoalReached` and an empty neighbor
list, reconstructs the path by walking predecessors back to `start` and
reversing, and returns immediately; however the record's `node` field holds
the *start* cell (the final value of the mutated `current` variable after
the predecessor walk), not the goal cell.
-/
theorem astar_goal_record (grid : List (List ℕ)) (start goal : Cell)
    (hsB : inBounds (grid.length : ℤ) ((grid.headD []).length : ℤ) start)
    (hsO : isOpen grid start)
    (p : List Cell) (tr : List StepRecord)
    (h : astar grid start goal = some (some p, tr)) :
    ∃ pre final, tr = pre ++ [final] ∧
      (∀ r ∈ pre, r.status = AStatus.Searching) ∧
      final.status = AStatus.GoalReached ∧ final.neighbors = [] ∧
      final.node = start ∧
      p.head? = some start ∧ p.getLast? = some goal := by
  have hrecon : ((grid.length : ℤ)).toNat * (((grid.headD []).length : ℤ)).toNat <
      gridSize grid + 1 := by
    rw [size_eq]
    omega
  have hI := loopInv_init grid (grid.length : ℤ) ((grid.headD []).length : ℤ)
    start goal hsB hsO
  obtain ⟨_, _, hsome⟩ := loopA_sound hrecon (gridSize grid * gridSize grid + 2)
    ⟨[((0 : ℤ), start)], mapUpd (fun _ => none) start 0, fun _ => none, []⟩ (some p) tr hI h
  obtain ⟨pre, final, htr, hpre, hst, hnb, hnode, _, hhead, hlast, _, _⟩ := hsome p rfl
  exact ⟨pre, final, htr, hpre, hst, hnb, hnode, hhead, hlast⟩

/--
**C4** (counterexample): on the 3×5 grid below with `start = (2,0)` and the
unreachable `goal = (0,4)`, the cell `(1,2)` is pushed twice (first with a
suboptimal `g` via `(0,2)`, then improved via `(2,2)`) and both stale
frontier entries are popped, so the trace holds 9 `Searching` records but
only 8 distinct popped cells — the claimed equality fails.
-/
theorem astar_c4_counterexample :
    ((astar [[0, 0, 0, 1, 0], [0, 1, 0, 1, 1], [0, 0, 0, 1, 1]] (2, 0) (0, 4)).map
      (fun r => (r.2.countP (fun s => s.status = AStatus.Searching),
                 (r.2.map (fun s => s.node)).dedup.length))) = some (9, 8) ∧
    (9 : ℕ) ≠ 8 := by
  constructor
  · decide
  · decide

/--
**C4** (amended): the trace holds one `Searching` record per frontier pop —
a cell popped again via a stale duplicate entry contributes one record per
pop, not one per distinct cell — and when the goal is reached the final
record has status `GoalReached` and an empty neighbor list, every earlier
record being `Searching`; when no path is found every record is `Searching`.
-/
theorem astar_trace_records (grid : List (List ℕ)) (start goal : Cell)
    (hsB : inBounds (grid.length : ℤ) ((grid.headD []).length : ℤ) start)
    (hsO : isOpen grid start)
    (pOpt : Option (List Cell)) (tr : List StepRecord)
    (h : astar grid start goal = some (pOpt, tr)) :
    (pOpt = none → ∀ r ∈ tr, r.status = AStatus.Searching) ∧
    (∀ p, pOpt = some p → ∃ pre final, tr = pre ++ [final] ∧
      (∀ r ∈ pre, r.status = AStatus.Searching) ∧
      final.status = AStatus.GoalReached ∧ final.neighbors = []) := by
  have hrecon : ((grid.length : ℤ)).toNat * (((grid.headD []).length : ℤ)).toNat <
      gridSize grid + 1 := by
    rw [size_eq]
    omega
  have hI := loopInv_init grid (grid.length : ℤ) ((grid.headD []).length : ℤ)
    start goal hsB hsO
  obtain ⟨_, hnone, hsome⟩ := loopA_sound hrecon (gridSize grid * gridSize grid + 2)
    ⟨[((0 : ℤ), start)], mapUpd (fun _ => none) start 0, fun _ => none, []⟩ pOpt tr hI h
  refine ⟨hnone, ?_⟩
  intro p hp
  obtain ⟨pre, final, htr, hpre, hst, hnb, _, _, _, _, _, _⟩ := hsome p hp
  exact ⟨pre, final, htr, hpre, hst, hnb⟩

/--
**C5** (counterexample): on the 1×2 all-open grid with `start = (0,0)` and
`goal = (0,1)`, the first record (for the seeded start entry) has `f = 0`
while `g + h = 0 + 1 = 1`, so `f = g + h` fails for it.
-/
theorem astar_c5_counterexample :
    ((astar [[0, 0]] (0, 0) (0, 1)).map
      (fun r => r.2.head?.map (fun s => (s.f, s.g + s.h)))) = some (some (0, 1)) ∧
    (0 : ℤ) ≠ 1 := by
  constructor
  · decide
  · decide

/--
**C5** (amended): every `StepRecord` appended by `astar` satisfies
`g + h ≤ f` — with strict inequality possible for pops of stale frontier
entries — except the record produced by the initial seeded frontier entry
`(0, start)`, which has `f = 0` and `g = 0` (so `f = g + h` for it only
when the heuristic of its node vanishes, i.e. `start = goal`).
-/
theorem astar_record_f_bound (grid : List (List ℕ)) (start goal : Cell)
    (hsB : inBounds (grid.length : ℤ) ((grid.headD []).length : ℤ) start)
    (hsO : isOpen grid start)
    (pOpt : Option (List Cell)) (tr : List StepRecord)
    (h : astar grid start goal = some (pOpt, tr)) :
    ∀ r ∈ tr, r.g + r.h ≤ r.f ∨ (r.f = 0 ∧ r.g = 0 ∧ r.node = start) := by
  have hrecon : ((grid.length : ℤ)).toNat * (((grid.headD []).length : ℤ)).toNat <
      gridSize grid + 1 := by
    rw [size_eq]
    omega
  have hI := loopInv_init grid (grid.length : ℤ) ((grid.headD []).length : ℤ)
    start goal hsB hsO
  obtain ⟨hfg, _, _⟩ := loopA_sound hrecon (gridSize grid * gridSize grid + 2)
    ⟨[((0 : ℤ), start)], mapUpd (fun _ => none) start 0, fun _ => none, []⟩ pOpt tr hI h
  exact hfg

/-- First-iteration behavior of `astar` with `start = goal`: the seeded
entry `(0, start)` is popped, the goal test fires at once, and the call
returns the single-cell path with one `GoalReached` record.  This holds for
any grid and any cell `s`, open or not: the code performs no endpoint
validation before the goal test. -/
theorem astar_self_run (grid : List (List ℕ)) (s : Cell) :
    astar grid s s =
      some (some [s], [⟨s, 0, 0, 0, [], AStatus.GoalReached⟩]) := by
  have h1 : popMin [((0 : ℤ), s)] = some (((0 : ℤ), s), []) := by
    simp [popMin, eraseFirst]
  have h2 : gridSize grid * gridSize grid + 2 =
      (gridSize grid * gridSize grid + 1) + 1 := rfl
  unfold astar
  rw [h2]
  simp only [loopA, h1]
  simp [reconLoop, mapUpd, heuristic_self]

/--
**C10**: for every grid and open in-bounds cell `s`, `astar grid s s`
returns the single-cell path `[s]` and a trace with exactly one
`StepRecord`, whose node is `s`, status `GoalReached`, neighbor list empty,
and whose `g`, `h`, `f` are all `0`.
-/
theorem astar_start_eq_goal (grid : List (List ℕ)) (s : Cell)
    (_hB : inBounds (grid.length : ℤ) ((grid.headD []).length : ℤ) s)
    (_hO : isOpen grid s) :
    astar grid s s =
      some (some [s], [⟨s, 0, 0, 0, [], AStatus.GoalReached⟩]) :=
  astar_self_run grid s

/-- **C10** (witness): the theorem applied to the 1×1 open grid. -/
theorem astar_start_eq_goal_witness :
    astar [[0]] (0, 0) (0, 0) =
      some (some [(0, 0)], [⟨(0, 0), 0, 0, 0, [], AStatus.GoalReached⟩]) :=
  astar_start_eq_goal [[0]] (0, 0) (by decide) (by decide)

/-! ### Maze generation (`generate_maze`, recursive backtracker) -/

/-- The random source.  `random.shuffle` is modelled by an injected family
of list transformers: the `k`-th shuffle call applies `rng k` to the
neighbor list.  Faithfulness to `random.shuffle` is the hypothesis
`∀ k l, (rng k l).Perm l` carried by the theorems. -/
abbrev Rng : Type := ℕ → List (ℤ × ℤ × ℤ × ℤ) → List (ℤ × ℤ × ℤ × ℤ)

/-- `maze[r][c] = v` (a guarded 2-D list write; all writes performed by the
algorithm are in bounds once the dimensions are positive). -/
def set2D (maze : List (List ℕ)) (r c : ℤ) (v : ℕ) : List (List ℕ) :=
  if 0 ≤ r ∧ 0 ≤ c then
    maze.set r.toNat ((maze.getD r.toNat []).set c.toNat v)
  else maze

/-- `get_neighbors(r, c)` from the source: the in-bounds room cells two
steps away, together with the half-offsets to the wall between, in the
order `[(0,2), (0,-2), (2,0), (-2,0)]`, then shuffled; `k` counts the
shuffle calls made so far. -/
def get_neighbors (rows cols : ℤ) (rng : Rng) (k : ℕ) (r c : ℤ) :
    List (ℤ × ℤ × ℤ × ℤ) × ℕ :=
  let dirs : List (ℤ × ℤ) := [(0, 2), (0, -2), (2, 0), (-2, 0)]
  let neighbors := dirs.filterMap (fun d =>
    if 0 ≤ r + d.1 ∧ r + d.1 < rows ∧ 0 ≤ c + d.2 ∧ c + d.2 < cols then
      some (r + d.1, c + d.2, d.1 / 2, d.2 / 2)
    else none)
  (rng k neighbors, k + 1)

/-- `visit(r, c)` from the source: mark the room open, then walk the
shuffled neighbor list `(nr, nc, dr, dc)`, knocking down the wall and
recursing into each still-closed room.  The state threaded through the
loop is the maze together with the shuffle counter.  The fuel only bounds
the recursion depth; the fuel chosen by `generate_maze` is proved
sufficient. -/
def visitF (rows cols : ℤ) (rng : Rng) :
    ℕ → List (List ℕ) → ℕ → ℤ → ℤ → List (List ℕ) × ℕ
  | 0, maze, k, _, _ => (maze, k)
  | fuel + 1, maze, k, r, c =>
    let m1 := set2D maze r c 0
    let p := get_neighbors rows cols rng k r c
    p.1.foldl (fun (q : List (List ℕ) × ℕ) nb =>
      if cellVal q.1 nb.1 nb.2.1 = 1 then
        visitF rows cols rng fuel
          (set2D q.1 (r + nb.2.2.1) (c + nb.2.2.2) 0) q.2 nb.1 nb.2.1
      else q) (m1, p.2)

/-- The body of the neighbor loop of `visit`, named for the proofs. -/
def visitStep (rows cols : ℤ) (rng : Rng) (fuel : ℕ) (r c : ℤ)
    (q : List (List ℕ) × ℕ) (nb : ℤ × ℤ × ℤ × ℤ) : List (List ℕ) × ℕ :=
  if cellVal q.1 nb.1 nb.2.1 = 1 then
    visitF rows cols rng fuel
      (set2D q.1 (r + nb.2.2.1) (c + nb.2.2.2) 0) q.2 nb.1 nb.2.1
  else q

theorem visitF_succ (rows cols : ℤ) (rng : Rng) (fuel : ℕ)
    (maze : List (List ℕ)) (k : ℕ) (r c : ℤ) :
    visitF rows cols rng (fuel + 1) maze k r c =
      (get_neighbors rows cols rng k r c).1.foldl
        (visitStep rows cols rng fuel r c)
        (set2D maze r c 0, (get_neighbors rows cols rng k r c).2) := rfl

/-- `generate_maze(rows, cols)` from the source.  With non-positive
dimensions the first statement of `visit(0, 0)` — `maze[0][0] = 0` — hits
an empty list and Python raises an uncaught `IndexError`; this is modelled
by returning `none`.  Otherwise all writes are in bounds and the final
grid is returned. -/
def generate_maze (rows cols : ℤ) (rng : Rng) : Option (List (List ℕ)) :=
  if rows ≤ 0 ∨ cols ≤ 0 then
    none
  else
    let maze := List.replicate rows.toNat (List.replicate cols.toNat 1)
    let q := visitF rows cols rng (rows.toNat * cols.toNat + 1) maze 0 0 0
    let m2 := set2D q.1 0 0 0
    let m3 := set2D m2 (rows - 1) (cols - 1) 0
    some m3

/-! ### Grid shape lemmas -/

/-- The grid is a `rows × cols` rectangle. -/
def WellShaped (rows cols : ℤ) (m : List (List ℕ)) : Prop :=
  m.length = rows.toNat ∧ ∀ row ∈ m, row.length = cols.toNat

theorem ws_replicate (rows cols : ℤ) :
    WellShaped rows cols (List.replicate rows.toNat (List.replicate cols.toNat 1)) := by
  constructor
  · simp
  · intro row hrow
    rw [List.eq_of_mem_replicate hrow]
    simp


theorem ws_set2D {rows cols : ℤ} {m : List (List ℕ)} (hws : WellShaped rows cols m)
    (r c : ℤ) (v : ℕ) : WellShaped rows cols (set2D m r c v) := by
  unfold set2D
  by_cases hg : 0 ≤ r ∧ 0 ≤ c
  · rw [if_pos hg]
    obtain ⟨h1, h2⟩ := hws
    by_cases hlt : r.toNat < m.length
    · refine ⟨by simp [h1], ?_⟩
      intro row hrow
      rcases List.mem_or_eq_of_mem_set hrow with hmem | heq
      · exact h2 row hmem
      · subst heq
        rw [List.length_set]
        rw [List.getD_eq_getElem?_getD, List.getElem?_eq_getElem hlt]
        exact h2 _ (List.getElem_mem hlt)
    · rw [List.set_eq_of_length_le (by omega)]
      exact ⟨h1, h2⟩
  · rw [if_neg hg]
    exact hws

theorem cellVal_set2D_same {rows cols : ℤ} {m : List (List ℕ)}
    (hws : WellShaped rows cols m) {r c : ℤ} (hr0 : 0 ≤ r) (hr : r < rows)
    (hc0 : 0 ≤ c) (hc : c < cols) (v : ℕ) :
    cellVal (set2D m r c v) r c = v := by
  obtain ⟨h1, h2⟩ := hws
  have hrlt : r.toNat < m.length := by omega
  have hrow : (m.getD r.toNat []).length = cols.toNat := by
    rw [List.getD_eq_getElem?_getD, List.getElem?_eq_getElem hrlt]
    exact h2 _ (List.getElem_mem hrlt)
  have hclt : c.toNat < (m.getD r.toNat []).length := by omega
  unfold set2D cellVal
  rw [if_pos ⟨hr0, hc0⟩, if_pos ⟨hr0, hc0⟩]
  simp only [List.getD_eq_getElem?_getD]
  rw [List.getElem?_set_self hrlt]
  simp only [Option.getD_some]
  have hclt' : c.toNat < (m[r.toNat]?.getD []).length := by
    rw [← List.getD_eq_getElem?_getD]
    exact hclt
  rw [List.getElem?_set_self hclt']
  rfl

theorem cellVal_set2D_other {m : List (List ℕ)} {r c r' c' : ℤ}
    (hne : (r', c') ≠ (r, c)) (v : ℕ) :
    cellVal (set2D m r c v) r' c' = cellVal m r' c' := by
  unfold set2D cellVal
  by_cases hg : 0 ≤ r ∧ 0 ≤ c
  · rw [if_pos hg]
    by_cases hg' : 0 ≤ r' ∧ 0 ≤ c'
    · rw [if_pos hg', if_pos hg']
      have houter : (m.set r.toNat ((m.getD r.toNat []).set c.toNat v)).getD r'.toNat [] =
          if r.toNat = r'.toNat then
            (if r.toNat < m.length then (m.getD r.toNat []).set c.toNat v
             else m.getD r'.toNat [])
          else m.getD r'.toNat [] := by
        rw [List.getD_eq_getElem?_getD, List.getElem?_set]
        by_cases h1 : r.toNat = r'.toNat
        · rw [if_pos h1, if_pos h1]
          by_cases h2 : r.toNat < m.length
          · rw [if_pos h2, if_pos h2]
            rfl
          · rw [if_neg h2, if_neg h2]
            rw [List.getD_eq_default _ _ (by omega)]
            rfl
        · rw [if_neg h1, if_neg h1, ← List.getD_eq_getElem?_getD]
      rw [houter]
      by_cases h1 : r.toNat = r'.toNat
      · rw [if_pos h1]
        by_cases h2 : r.toNat < m.length
        · rw [if_pos h2]
          have hre : r = r' := by omega
          have hcc : c.toNat ≠ c'.toNat := by
            have hne' : ¬(r' = r ∧ c' = c) := by
              intro hand
              exact hne (by rw [hand.1, hand.2])
            have : c' ≠ c := fun hce => hne' ⟨hre.symm, hce⟩
            omega
          rw [List.getD_eq_getElem?_getD, List.getElem?_set_ne hcc,
            ← List.getD_eq_getElem?_getD, h1]
        · rw [if_neg h2]
      · rw [if_neg h1]
    · rw [if_neg hg', if_neg hg']
  · rw [if_neg hg]

/-- Generic preservation of a predicate along `List.foldl`. -/
theorem foldl_preserve {α β : Type} (P : α → Prop) (f : α → β → α) :
    ∀ (l : List β) (a : α), P a → (∀ x b, b ∈ l → P x → P (f x b)) →
      P (l.foldl f a) := by
  intro l
  induction l with
  | nil =>
    intro a ha _
    exact ha
  | cons b rest ih =>
    intro a ha hstep
    exact ih (f a b) (hstep a b (List.mem_cons_self b rest) ha)
      (fun x e he hx => hstep x e (List.mem_cons_of_mem b he) hx)

/-- `visit` preserves the rectangular shape of the grid. -/
theorem visit_ws (rows cols : ℤ) (rng : Rng) : ∀ (fuel : ℕ) (m : List (List ℕ)) (k : ℕ)
    (r c : ℤ), WellShaped rows cols m →
    WellShaped rows cols (visitF rows cols rng fuel m k r c).1 := by
  intro fuel
  induction fuel with
  | zero =>
    intro m k r c h
    simpa [visitF] using h
  | succ fuel ih =>
    intro m k r c h
    rw [visitF_succ]
    refine foldl_preserve (fun (q : List (List ℕ) × ℕ) => WellShaped rows cols q.1) _ _ _
      (ws_set2D h r c 0) ?_
    intro q nb _ hq
    unfold visitStep
    by_cases hcond : cellVal q.1 nb.1 nb.2.1 = 1
    · rw [if_pos hcond]
      exact ih _ _ _ _ (ws_set2D hq _ _ _)
    · rw [if_neg hcond]
      exact hq

/-! ### The room graph of a generated maze

The recursive backtracker carves a maze on the sublattice of cells with
both coordinates even (the *rooms*); the odd cells between two rooms are
the walls it may knock down.  The perfect-maze claim is about the graph
whose vertices are the open rooms and whose edges are pairs of rooms two
apart with an open wall between them. -/

/-- Room cells: in bounds with both coordinates even. -/
def Room (rows cols : ℤ) (v : Cell) : Prop :=
  0 ≤ v.1 ∧ v.1 < rows ∧ 0 ≤ v.2 ∧ v.2 < cols ∧ v.1 % 2 = 0 ∧ v.2 % 2 = 0

instance (rows cols : ℤ) (v : Cell) : Decidable (Room rows cols v) := by
  unfold Room
  infer_instance

/-- Rooms two apart in exactly one axis. -/
def RoomNbr (v w : Cell) : Prop :=
  (v.1 = w.1 ∧ (w.2 = v.2 + 2 ∨ w.2 = v.2 - 2)) ∨
  (v.2 = w.2 ∧ (w.1 = v.1 + 2 ∨ w.1 = v.1 - 2))

/-- The wall cell between two rooms two apart. -/
def midC (v w : Cell) : Cell := ((v.1 + w.1) / 2, (v.2 + w.2) / 2)

/-- An edge of the room graph: two open rooms two apart whose separating
wall cell is open. -/
def roomEdge (rows cols : ℤ) (m : List (List ℕ)) (v w : Cell) : Prop :=
  Room rows cols v ∧ Room rows cols w ∧ isOpen m v ∧ isOpen m w ∧
    RoomNbr v w ∧ isOpen m (midC v w)

/-- A simple path of the room graph from `v` to `w`. -/
def SimplePath (rows cols : ℤ) (m : List (List ℕ)) (l : List Cell) (v w : Cell) : Prop :=
  l.Chain' (roomEdge rows cols m) ∧ l.head? = some v ∧ l.getLast? = some w ∧ l.Nodup

theorem roomNbr_symm {v w : Cell} (h : RoomNbr v w) : RoomNbr w v := by
  unfold RoomNbr at *
  omega

theorem midC_comm (v w : Cell) : midC v w = midC w v := by
  unfold midC
  rw [Int.add_comm v.1, Int.add_comm v.2]

theorem roomNbr_ne {v w : Cell} (h : RoomNbr v w) : v ≠ w := by
  unfold RoomNbr at h
  intro he
  rw [he] at h
  omega

/-- Geometry of the wall between two adjacent rooms: it is in bounds, has
exactly one odd coordinate (so it is not a room) and differs from both
endpoints. -/
theorem midC_props {rows cols : ℤ} {v w : Cell} (hv : Room rows cols v)
    (hw : Room rows cols w) (hn : RoomNbr v w) :
    0 ≤ (midC v w).1 ∧ (midC v w).1 < rows ∧ 0 ≤ (midC v w).2 ∧ (midC v w).2 < cols ∧
      ((midC v w).1 % 2 ≠ 0 ∨ (midC v w).2 % 2 ≠ 0) ∧ midC v w ≠ v ∧ midC v w ≠ w := by
  obtain ⟨v1, v2⟩ := v
  obtain ⟨w1, w2⟩ := w
  simp only [Room] at hv hw
  simp only [RoomNbr] at hn
  simp only [midC, ne_eq, Prod.mk.injEq, not_and]
  omega

theorem not_room_midC {rows cols : ℤ} {v w : Cell} (hv : Room rows cols v)
    (hw : Room rows cols w) (hn : RoomNbr v w) : ¬ Room rows cols (midC v w) := by
  intro hR
  obtain ⟨_, _, _, _, hodd, _, _⟩ := midC_props hv hw hn
  obtain ⟨_, _, _, _, h1, h2⟩ := hR
  omega

/-- A wall cell determines the unordered pair of rooms it separates. -/
theorem mid_pair_eq {rows cols : ℤ} {a b x y : Cell}
    (ha : Room rows cols a) (hb : Room rows cols b) (hx : Room rows cols x)
    (hy : Room rows cols y) (hab : RoomNbr a b) (hxy : RoomNbr x y)
    (hmid : midC a b = midC x y) :
    (a = x ∧ b = y) ∨ (a = y ∧ b = x) := by
  obtain ⟨a1, a2⟩ := a
  obtain ⟨b1, b2⟩ := b
  obtain ⟨x1, x2⟩ := x
  obtain ⟨y1, y2⟩ := y
  simp only [Room] at ha hb hx hy
  simp only [RoomNbr] at hab hxy
  simp only [midC, Prod.mk.injEq] at hmid ⊢
  omega

/-- The forced goal corner `(rows-1, cols-1)` is never the wall between two
in-bounds rooms. -/
theorem midC_ne_corner {rows cols : ℤ} {v w : Cell} (hv : Room rows cols v)
    (hw : Room rows cols w) (hn : RoomNbr v w) :
    midC v w ≠ (rows - 1, cols - 1) := by
  obtain ⟨v1, v2⟩ := v
  obtain ⟨w1, w2⟩ := w
  simp only [Room] at hv hw
  simp only [RoomNbr] at hn
  simp only [midC, ne_eq, Prod.mk.injEq, not_and]
  omega

theorem roomEdge_symm {rows cols : ℤ} {m : List (List ℕ)} {v w : Cell}
    (h : roomEdge rows cols m v w) : roomEdge rows cols m w v := by
  obtain ⟨h1, h2, h3, h4, h5, h6⟩ := h
  exact ⟨h2, h1, h4, h3, roomNbr_symm h5, by rw [midC_comm]; exact h6⟩

/-! ### Counting closed rooms (the fuel measure of `visit`) -/

/-- The number of still-closed rooms of the grid. -/
def closedRooms (rows cols : ℤ) (m : List (List ℕ)) : ℕ :=
  ((cellsFinset rows cols).filter
    (fun v => v.1 % 2 = 0 ∧ v.2 % 2 = 0 ∧ cellVal m v.1 v.2 ≠ 0)).card

theorem closedRooms_le (rows cols : ℤ) (m : List (List ℕ)) :
    closedRooms rows cols m ≤ rows.toNat * cols.toNat := by
  calc closedRooms rows cols m ≤ (cellsFinset rows cols).card := Finset.card_filter_le _ _
  _ = rows.toNat * cols.toNat := card_cellsFinset rows cols

theorem closedRooms_pos {rows cols : ℤ} {m : List (List ℕ)} {v : Cell}
    (hroom : Room rows cols v) (hcl : cellVal m v.1 v.2 ≠ 0) :
    1 ≤ closedRooms rows cols m := by
  obtain ⟨h1, h2, h3, h4, h5, h6⟩ := hroom
  refine Finset.card_pos.mpr ⟨v, Finset.mem_filter.mpr ⟨?_, h5, h6, hcl⟩⟩
  exact mem_cellsFinset.mpr ⟨h1, h2, h3, h4⟩

theorem closedRooms_antitone {rows cols : ℤ} {m m2 : List (List ℕ)}
    (h : ∀ r c : ℤ, cellVal m r c = 0 → cellVal m2 r c = 0) :
    closedRooms rows cols m2 ≤ closedRooms rows cols m := by
  refine Finset.card_le_card (fun x hx => ?_)
  rw [Finset.mem_filter] at hx ⊢
  obtain ⟨hmem, hp1, hp2, hne⟩ := hx
  refine ⟨hmem, hp1, hp2, fun h0 => hne (h _ _ h0)⟩

theorem closedRooms_congr {rows cols : ℤ} {m m2 : List (List ℕ)}
    (h : ∀ v : Cell, Room rows cols v → cellVal m2 v.1 v.2 = cellVal m v.1 v.2) :
    closedRooms rows cols m2 = closedRooms rows cols m := by
  unfold closedRooms
  congr 1
  refine Finset.filter_congr (fun x hx => ?_)
  rw [mem_cellsFinset] at hx
  obtain ⟨h1, h2, h3, h4⟩ := hx
  by_cases hp : x.1 % 2 = 0 ∧ x.2 % 2 = 0
  · rw [h x ⟨h1, h2, h3, h4, hp.1, hp.2⟩]
  · constructor
    · rintro ⟨q1, q2, _⟩
      exact absurd ⟨q1, q2⟩ hp
    · rintro ⟨q1, q2, _⟩
      exact absurd ⟨q1, q2⟩ hp

theorem closedRooms_dec {rows cols : ℤ} {m : List (List ℕ)} {v : Cell}
    (hws : WellShaped rows cols m) (hroom : Room rows cols v)
    (hcl : cellVal m v.1 v.2 ≠ 0) :
    closedRooms rows cols (set2D m v.1 v.2 0) + 1 = closedRooms rows cols m := by
  obtain ⟨h1, h2, h3, h4, h5, h6⟩ := hroom
  have hmem : v ∈ (cellsFinset rows cols).filter
      (fun x => x.1 % 2 = 0 ∧ x.2 % 2 = 0 ∧ cellVal m x.1 x.2 ≠ 0) :=
    Finset.mem_filter.mpr ⟨mem_cellsFinset.mpr ⟨h1, h2, h3, h4⟩, h5, h6, hcl⟩
  have hset : (cellsFinset rows cols).filter
      (fun x => x.1 % 2 = 0 ∧ x.2 % 2 = 0 ∧ cellVal (set2D m v.1 v.2 0) x.1 x.2 ≠ 0) =
      ((cellsFinset rows cols).filter
        (fun x => x.1 % 2 = 0 ∧ x.2 % 2 = 0 ∧ cellVal m x.1 x.2 ≠ 0)).erase v := by
    ext x
    rw [Finset.mem_erase, Finset.mem_filter, Finset.mem_filter]
    constructor
    · rintro ⟨hmx, hq1, hq2, hqne⟩
      have hxv : x ≠ v := by
        intro he
        subst he
        rw [cellVal_set2D_same hws h1 h2 h3 h4] at hqne
        exact hqne rfl
      have hcv : cellVal (set2D m v.1 v.2 0) x.1 x.2 = cellVal m x.1 x.2 := by
        refine cellVal_set2D_other ?_ 0
        intro he
        rw [Prod.mk.injEq] at he
        exact hxv (Prod.ext_iff.mpr he)
      rw [hcv] at hqne
      exact ⟨hxv, hmx, hq1, hq2, hqne⟩
    · rintro ⟨hxv, hmx, hq1, hq2, hqne⟩
      have hcv : cellVal (set2D m v.1 v.2 0) x.1 x.2 = cellVal m x.1 x.2 := by
        refine cellVal_set2D_other ?_ 0
        intro he
        rw [Prod.mk.injEq] at he
        exact hxv (Prod.ext_iff.mpr he)
      rw [hcv]
      exact ⟨hmx, hq1, hq2, hqne⟩
  unfold closedRooms
  rw [hset, Finset.card_erase_of_mem hmem]
  have hpos : 0 < ((cellsFinset rows cols).filter
      (fun x => x.1 % 2 = 0 ∧ x.2 % 2 = 0 ∧ cellVal m x.1 x.2 ≠ 0)).card :=
    Finset.card_pos.mpr ⟨v, hmem⟩
  omega

/-! ### More grid plumbing for zero-writes -/

/-- The initial all-wall grid reads `1` everywhere (in or out of bounds,
`cellVal` defaulting to `1`). -/
theorem cellVal_replicate_one (rows cols : ℤ) (r c : ℤ) :
    cellVal (List.replicate rows.toNat (List.replicate cols.toNat 1)) r c = 1 := by
  unfold cellVal
  by_cases hg : 0 ≤ r ∧ 0 ≤ c
  · rw [if_pos hg]
    have hrow : (List.replicate rows.toNat (List.replicate cols.toNat 1)).getD r.toNat []
        = List.replicate cols.toNat 1 ∨
        (List.replicate rows.toNat (List.replicate cols.toNat 1)).getD r.toNat [] = [] := by
      rw [List.getD_eq_getElem?_getD, List.getElem?_replicate]
      by_cases hr : r.toNat < rows.toNat
      · rw [if_pos hr]
        exact Or.inl rfl
      · rw [if_neg hr]
        exact Or.inr rfl
    rcases hrow with h | h <;> rw [h]
    · rw [List.getD_eq_getElem?_getD, List.getElem?_replicate]
      by_cases hc : c.toNat < cols.toNat
      · rw [if_pos hc]
        rfl
      · rw [if_neg hc]
        rfl
    · rfl
  · rw [if_neg hg]

/-- Writing a `0` leaves every cell either `0` or unchanged, with no
shape or bounds assumptions. -/
theorem cellVal_set2D_zero_cases (m : List (List ℕ)) (r c rq cq : ℤ) :
    cellVal (set2D m r c 0) rq cq = 0 ∨
      cellVal (set2D m r c 0) rq cq = cellVal m rq cq := by
  by_cases he : (rq, cq) = (r, c)
  · rw [Prod.mk.injEq] at he
    obtain ⟨he1, he2⟩ := he
    subst he1
    subst he2
    unfold set2D cellVal
    by_cases hg : 0 ≤ rq ∧ 0 ≤ cq
    · rw [if_pos hg, if_pos hg, if_pos hg]
      by_cases hr : rq.toNat < m.length
      · have hrow : (m.set rq.toNat ((m.getD rq.toNat []).set cq.toNat 0)).getD rq.toNat []
            = (m.getD rq.toNat []).set cq.toNat 0 := by
          rw [List.getD_eq_getElem?_getD, List.getElem?_set_self hr]
          rfl
        rw [hrow]
        by_cases hc : cq.toNat < (m.getD rq.toNat []).length
        · left
          rw [List.getD_eq_getElem?_getD, List.getElem?_set_self hc]
          rfl
        · right
          rw [List.set_eq_of_length_le (by omega)]
      · rw [List.set_eq_of_length_le (by omega)]
        right
        rfl
    · rw [if_neg hg, if_neg hg]
      exact Or.inr rfl
  · right
    exact cellVal_set2D_other he 0

/-- Zero-writes are monotone on open cells. -/
theorem set2D_zero_mono {m : List (List ℕ)} {rq cq : ℤ} (r c : ℤ)
    (h : cellVal m rq cq = 0) : cellVal (set2D m r c 0) rq cq = 0 := by
  rcases cellVal_set2D_zero_cases m r c rq cq with h0 | h0
  · exact h0
  · rw [h0, h]

/-- Zero-writes preserve binary-valuedness of the grid. -/
theorem set2D_zero_binary {m : List (List ℕ)}
    (hb : ∀ r c : ℤ, cellVal m r c = 0 ∨ cellVal m r c = 1) (r c : ℤ) :
    ∀ rq cq : ℤ, cellVal (set2D m r c 0) rq cq = 0 ∨
      cellVal (set2D m r c 0) rq cq = 1 := by
  intro rq cq
  rcases cellVal_set2D_zero_cases m r c rq cq with h0 | h0
  · exact Or.inl h0
  · rw [h0]
    exact hb rq cq

/-! ### The spanning-tree invariant of the backtracker -/

/-- Ghost spanning-tree invariant maintained by `visit`: `par` assigns to
each open non-start room the room it was carved from and `ρ` its depth in
the carving tree; every open non-room cell is the knocked-down wall
between such a room and its parent, so open walls are exactly tree edges. -/
structure TreeInv (rows cols : ℤ) (m : List (List ℕ)) (par : Cell → Cell)
    (ρ : Cell → ℕ) : Prop where
  ws : WellShaped rows cols m
  binary : ∀ r c : ℤ, cellVal m r c = 0 ∨ cellVal m r c = 1
  root : cellVal m 0 0 = 0
  wallPar : ∀ u : Cell, 0 ≤ u.1 → u.1 < rows → 0 ≤ u.2 → u.2 < cols →
      ¬ Room rows cols u → isOpen m u →
      ∃ v, Room rows cols v ∧ isOpen m v ∧ v ≠ (0, 0) ∧ u = midC v (par v)
  roomPar : ∀ v : Cell, Room rows cols v → isOpen m v → v ≠ (0, 0) →
      Room rows cols (par v) ∧ isOpen m (par v) ∧ RoomNbr v (par v) ∧
        isOpen m (midC v (par v)) ∧ ρ v = ρ (par v) + 1

/-- Shape of an entry of the shuffled neighbor list of `visit(r, c)`: the
target is an adjacent room and the half-offsets point at the wall between. -/
def NbOK (rows cols r c : ℤ) (nb : ℤ × ℤ × ℤ × ℤ) : Prop :=
  Room rows cols (nb.1, nb.2.1) ∧ RoomNbr (r, c) (nb.1, nb.2.1) ∧
    (r + nb.2.2.1, c + nb.2.2.2) = midC (nb.1, nb.2.1) (r, c)

/-- Every entry of the shuffled neighbor list is well-formed. -/
theorem nbOK_of_mem {rows cols : ℤ} {rng : Rng} (hperm : ∀ k l, (rng k l).Perm l)
    {k : ℕ} {r c : ℤ} (hroom : Room rows cols (r, c)) :
    ∀ nb ∈ (get_neighbors rows cols rng k r c).1, NbOK rows cols r c nb := by
  intro nb hnb
  obtain ⟨hb1, hb2, hb3, hb4, hp1, hp2⟩ := hroom
  have hmem : nb ∈ ([((0 : ℤ), (2 : ℤ)), (0, -2), (2, 0), (-2, 0)]).filterMap
      (fun d => if 0 ≤ r + d.1 ∧ r + d.1 < rows ∧ 0 ≤ c + d.2 ∧ c + d.2 < cols then
        some (r + d.1, c + d.2, d.1 / 2, d.2 / 2) else none) :=
    (hperm k _).subset hnb
  rw [List.mem_filterMap] at hmem
  obtain ⟨d, hd, hnbeq⟩ := hmem
  by_cases hcond : 0 ≤ r + d.1 ∧ r + d.1 < rows ∧ 0 ≤ c + d.2 ∧ c + d.2 < cols
  · rw [if_pos hcond] at hnbeq
    injection hnbeq with hnbeq
    subst hnbeq
    simp only [List.mem_cons] at hd
    simp only [NbOK, Room, RoomNbr, midC, Prod.mk.injEq, true_or, or_true, true_and,
      and_true] at hb1 hb2 hb3 hb4 hp1 hp2 ⊢
    rcases hd with rfl | rfl | rfl | rfl | h0
    · omega
    · omega
    · omega
    · omega
    · simp at h0
  · rw [if_neg hcond] at hnbeq
    exact absurd hnbeq (by simp)

/-- Every adjacent room of `(r, c)` appears in the shuffled neighbor list. -/
theorem roomNbr_mem_neighbors {rows cols : ℤ} {rng : Rng}
    (hperm : ∀ k l, (rng k l).Perm l) (k : ℕ) {r c : ℤ} {v : Cell}
    (hv : Room rows cols v) (hn : RoomNbr (r, c) v) :
    ∃ nb ∈ (get_neighbors rows cols rng k r c).1, nb.1 = v.1 ∧ nb.2.1 = v.2 := by
  obtain ⟨hb1, hb2, hb3, hb4, hp1, hp2⟩ := hv
  have hpick : ∃ d ∈ ([((0 : ℤ), (2 : ℤ)), (0, -2), (2, 0), (-2, 0)]),
      r + d.1 = v.1 ∧ c + d.2 = v.2 := by
    simp only [RoomNbr] at hn
    simp only [List.mem_cons, List.mem_singleton]
    rcases hn with ⟨h1, h2 | h2⟩ | ⟨h1, h2 | h2⟩
    · exact ⟨(0, 2), by tauto, by omega, by omega⟩
    · exact ⟨(0, -2), by tauto, by omega, by omega⟩
    · exact ⟨(2, 0), by tauto, by omega, by omega⟩
    · exact ⟨(-2, 0), by tauto, by omega, by omega⟩
  obtain ⟨d, hd, he1, he2⟩ := hpick
  refine ⟨(r + d.1, c + d.2, d.1 / 2, d.2 / 2), ?_, he1, he2⟩
  refine (hperm k _).mem_iff.mpr ?_
  refine List.mem_filterMap.mpr ⟨d, hd, ?_⟩
  rw [if_pos (by omega)]

/-- Everything a completed `visit(r, c)` call guarantees, relative to the
grid `m` at entry (before `visit` marks `(r, c)` open): the tree invariant
holds for some ghost assignment, open cells only grow, and every room it
newly opened has all its adjacent rooms open on return. -/
structure VisitOut (rows cols : ℤ) (m res : List (List ℕ)) (r c : ℤ) : Prop where
  tree : ∃ par ρ, TreeInv rows cols res par ρ
  mono : ∀ rq cq : ℤ, cellVal (set2D m r c 0) rq cq = 0 → cellVal res rq cq = 0
  frontier : ∀ v : Cell, Room rows cols v → isOpen res v →
      cellVal m v.1 v.2 = 0 ∨
        ∀ w : Cell, Room rows cols w → RoomNbr v w → isOpen res w

theorem room_origin {rows cols : ℤ} (hr : 0 < rows) (hc : 0 < cols) :
    Room rows cols (0, 0) := by
  simp only [Room]
  omega

/-- Pointwise extension of the ghost parent map at the newly carved room. -/
def extPar (par : Cell → Cell) (nr nc r c : ℤ) : Cell → Cell :=
  fun x => if x = (nr, nc) then (r, c) else par x

/-- Pointwise extension of the ghost depth map at the newly carved room. -/
def extRho (ρ : Cell → ℕ) (nr nc : ℤ) (n : ℕ) : Cell → ℕ :=
  fun x => if x = (nr, nc) then n else ρ x

theorem extPar_same (par : Cell → Cell) (nr nc r c : ℤ) :
    extPar par nr nc r c (nr, nc) = (r, c) := by
  unfold extPar
  rw [if_pos rfl]

theorem extPar_other (par : Cell → Cell) (nr nc r c : ℤ) {x : Cell}
    (hx : x ≠ (nr, nc)) : extPar par nr nc r c x = par x := by
  unfold extPar
  rw [if_neg hx]

theorem extRho_same (ρ : Cell → ℕ) (nr nc : ℤ) (n : ℕ) :
    extRho ρ nr nc n (nr, nc) = n := by
  unfold extRho
  rw [if_pos rfl]

theorem extRho_other (ρ : Cell → ℕ) (nr nc : ℤ) (n : ℕ) {x : Cell}
    (hx : x ≠ (nr, nc)) : extRho ρ nr nc n x = ρ x := by
  unfold extRho
  rw [if_neg hx]

/-- Knocking down the wall to a still-closed adjacent room and opening that
room preserves the tree invariant, extending the ghost maps at the new room. -/
theorem treeInv_extend (rows cols : ℤ) (hr : 0 < rows) (hc : 0 < cols)
    {m : List (List ℕ)} {par : Cell → Cell} {ρ : Cell → ℕ}
    (hT : TreeInv rows cols m par ρ)
    {r c : ℤ} (hroom : Room rows cols (r, c)) (hrc : cellVal m r c = 0)
    {nr nc : ℤ} (hnbRoom : Room rows cols (nr, nc))
    (hnbNbr : RoomNbr (r, c) (nr, nc)) (hguard : cellVal m nr nc = 1) :
    TreeInv rows cols
      (set2D (set2D m (midC (nr, nc) (r, c)).1 (midC (nr, nc) (r, c)).2 0) nr nc 0)
      (extPar par nr nc r c) (extRho ρ nr nc (ρ (r, c) + 1)) := by
  obtain ⟨hwb1, hwb2, hwb3, hwb4, hwodd, hwneNb, hwneRC⟩ :=
    midC_props hnbRoom hroom (roomNbr_symm hnbNbr)
  have hwsm : WellShaped rows cols m := hT.ws
  have hwsms : WellShaped rows cols
      (set2D m (midC (nr, nc) (r, c)).1 (midC (nr, nc) (r, c)).2 0) :=
    ws_set2D hwsm _ _ 0
  have hnbB : 0 ≤ nr ∧ nr < rows ∧ 0 ≤ nc ∧ nc < cols :=
    ⟨hnbRoom.1, hnbRoom.2.1, hnbRoom.2.2.1, hnbRoom.2.2.2.1⟩
  have hother : ∀ rq cq : ℤ, (rq, cq) ≠ ((nr : ℤ), (nc : ℤ)) →
      (rq, cq) ≠ midC (nr, nc) (r, c) →
      cellVal (set2D (set2D m (midC (nr, nc) (r, c)).1 (midC (nr, nc) (r, c)).2 0) nr nc 0)
        rq cq = cellVal m rq cq := by
    intro rq cq h1 h2
    rw [cellVal_set2D_other h1 0, cellVal_set2D_other (by rw [Prod.mk.eta]; exact h2) 0]
  have hmono : ∀ rq cq : ℤ, cellVal m rq cq = 0 →
      cellVal (set2D (set2D m (midC (nr, nc) (r, c)).1 (midC (nr, nc) (r, c)).2 0) nr nc 0)
        rq cq = 0 :=
    fun rq cq h => set2D_zero_mono _ _ (set2D_zero_mono _ _ h)
  have hroomVal : ∀ rq cq : ℤ, Room rows cols (rq, cq) → (rq, cq) ≠ ((nr : ℤ), (nc : ℤ)) →
      cellVal (set2D (set2D m (midC (nr, nc) (r, c)).1 (midC (nr, nc) (r, c)).2 0) nr nc 0)
        rq cq = cellVal m rq cq :=
    fun rq cq hx hne => hother rq cq hne
      (fun he => not_room_midC hnbRoom hroom (roomNbr_symm hnbNbr) (he ▸ hx))
  have hnbNe0 : ((nr : ℤ), (nc : ℤ)) ≠ ((0 : ℤ), (0 : ℤ)) := by
    intro he
    rw [Prod.mk.injEq] at he
    rw [he.1, he.2, hT.root] at hguard
    omega
  have hM2nb : cellVal
      (set2D (set2D m (midC (nr, nc) (r, c)).1 (midC (nr, nc) (r, c)).2 0) nr nc 0)
      nr nc = 0 :=
    cellVal_set2D_same hwsms hnbB.1 hnbB.2.1 hnbB.2.2.1 hnbB.2.2.2 0
  have hM2wall : cellVal
      (set2D (set2D m (midC (nr, nc) (r, c)).1 (midC (nr, nc) (r, c)).2 0) nr nc 0)
      (midC (nr, nc) (r, c)).1 (midC (nr, nc) (r, c)).2 = 0 := by
    rw [cellVal_set2D_other (by rw [Prod.mk.eta]; exact hwneNb) 0]
    exact cellVal_set2D_same hwsm hwb1 hwb2 hwb3 hwb4 0
  constructor
  · exact ws_set2D hwsms nr nc 0
  · exact set2D_zero_binary (set2D_zero_binary hT.binary _ _) nr nc
  · rw [hroomVal 0 0 (room_origin hr hc) (Ne.symm hnbNe0)]
    exact hT.root
  · intro u ub1 ub2 ub3 ub4 unr uop
    by_cases hu : u = midC (nr, nc) (r, c)
    · refine ⟨(nr, nc), hnbRoom, hM2nb, hnbNe0, ?_⟩
      rw [extPar_same]
      exact hu
    · have huneNb : u ≠ ((nr : ℤ), (nc : ℤ)) := fun he => unr (he ▸ hnbRoom)
      have huq : isOpen m u := by
        show cellVal m u.1 u.2 = 0
        rw [← hother u.1 u.2 (by rw [Prod.mk.eta]; exact huneNb)
          (by rw [Prod.mk.eta]; exact hu)]
        exact uop
      obtain ⟨v, hvR, hvO, hv0, hveq⟩ := hT.wallPar u ub1 ub2 ub3 ub4 unr huq
      have hvneNb : v ≠ ((nr : ℤ), (nc : ℤ)) := by
        intro he
        rw [he] at hvO
        have h0 : cellVal m nr nc = 0 := hvO
        omega
      refine ⟨v, hvR, hmono v.1 v.2 hvO, hv0, ?_⟩
      rw [extPar_other par nr nc r c hvneNb]
      exact hveq
  · intro v hvR hvO hv0
    by_cases hv : v = ((nr : ℤ), (nc : ℤ))
    · subst hv
      rw [extPar_same]
      refine ⟨hroom, ?_, roomNbr_symm hnbNbr, hM2wall, ?_⟩
      · show cellVal
          (set2D (set2D m (midC (nr, nc) (r, c)).1 (midC (nr, nc) (r, c)).2 0) nr nc 0)
          r c = 0
        rw [hroomVal r c hroom (roomNbr_ne hnbNbr)]
        exact hrc
      · rw [extRho_same, extRho_other ρ nr nc (ρ (r, c) + 1) (roomNbr_ne hnbNbr)]
    · have hvq : isOpen m v := by
        show cellVal m v.1 v.2 = 0
        rw [← hroomVal v.1 v.2 (by rw [Prod.mk.eta]; exact hvR)
          (by rw [Prod.mk.eta]; exact hv)]
        exact hvO
      obtain ⟨k1, k2, k3, k4, k5⟩ := hT.roomPar v hvR hvq hv0
      have hparNe : par v ≠ ((nr : ℤ), (nc : ℤ)) := by
        intro he
        rw [he] at k2
        have h0 : cellVal m nr nc = 0 := k2
        omega
      rw [extPar_other par nr nc r c hv, extRho_other ρ nr nc (ρ (r, c) + 1) hv,
        extRho_other ρ nr nc (ρ (r, c) + 1) hparNe]
      exact ⟨k1, hmono _ _ k2, k3, hmono _ _ k4, k5⟩

/-- Specification of the neighbor loop of `visit`, by induction over the
remaining (shuffled) neighbor list: the tree invariant, monotonicity and
the fuel bound are preserved, every listed neighbor room ends open, and
rooms opened during the loop end with all their neighbors open. -/
theorem visitFold_spec (rows cols : ℤ) (rng : Rng) (hr : 0 < rows) (hc : 0 < cols)
    (fuel : ℕ) (r c : ℤ) (hroom : Room rows cols (r, c))
    (IH : ∀ (m : List (List ℕ)) (k : ℕ) (r2 c2 : ℤ) (par : Cell → Cell) (ρ : Cell → ℕ),
      Room rows cols (r2, c2) → cellVal m r2 c2 = 1 → WellShaped rows cols m →
      closedRooms rows cols m ≤ fuel → TreeInv rows cols (set2D m r2 c2 0) par ρ →
      VisitOut rows cols m (visitF rows cols rng fuel m k r2 c2).1 r2 c2) :
    ∀ l : List (ℤ × ℤ × ℤ × ℤ), (∀ nb ∈ l, NbOK rows cols r c nb) →
    ∀ q : List (List ℕ) × ℕ, ∀ par : Cell → Cell, ∀ ρ : Cell → ℕ,
      TreeInv rows cols q.1 par ρ →
      cellVal q.1 r c = 0 →
      closedRooms rows cols q.1 ≤ fuel →
      (∃ par2 ρ2, TreeInv rows cols
          (l.foldl (visitStep rows cols rng fuel r c) q).1 par2 ρ2) ∧
      (∀ rq cq : ℤ, cellVal q.1 rq cq = 0 →
        cellVal (l.foldl (visitStep rows cols rng fuel r c) q).1 rq cq = 0) ∧
      (∀ nb ∈ l,
        cellVal (l.foldl (visitStep rows cols rng fuel r c) q).1 nb.1 nb.2.1 = 0) ∧
      closedRooms rows cols (l.foldl (visitStep rows cols rng fuel r c) q).1 ≤ fuel ∧
      (∀ v : Cell, Room rows cols v →
        isOpen (l.foldl (visitStep rows cols rng fuel r c) q).1 v →
        isOpen q.1 v ∨ ∀ w : Cell, Room rows cols w → RoomNbr v w →
          isOpen (l.foldl (visitStep rows cols rng fuel r c) q).1 w) := by
  intro l
  induction l with
  | nil =>
    intro _ q par ρ hT hrc hfuel
    simp only [List.foldl_nil]
    exact ⟨⟨par, ρ, hT⟩, fun _ _ h => h, by simp, hfuel, fun v _ hv => Or.inl hv⟩
  | cons nb rest ihl =>
    intro hOKs q par ρ hT hrc hfuel
    obtain ⟨hnbRoom, hnbNbr, hwallEq⟩ := hOKs nb (List.mem_cons_self nb rest)
    simp only [List.foldl_cons]
    by_cases hguard : cellVal q.1 nb.1 nb.2.1 = 1
    case neg =>
      have hstep : visitStep rows cols rng fuel r c q nb = q := by
        unfold visitStep
        rw [if_neg hguard]
      rw [hstep]
      have hnbOpen : cellVal q.1 nb.1 nb.2.1 = 0 := by
        rcases hT.binary nb.1 nb.2.1 with h0 | h0
        · exact h0
        · exact absurd h0 hguard
      obtain ⟨c1, c2, c3, c4, c5⟩ := ihl (fun x hx => hOKs x (List.mem_cons_of_mem nb hx))
        q par ρ hT hrc hfuel
      refine ⟨c1, c2, ?_, c4, c5⟩
      intro x hx
      rcases List.mem_cons.mp hx with rfl | hx
      · exact c2 x.1 x.2.1 hnbOpen
      · exact c3 x hx
    case pos =>
      obtain ⟨hwb1, hwb2, hwb3, hwb4, hwodd, hwneNb, hwneRC⟩ :=
        midC_props hnbRoom hroom (roomNbr_symm hnbNbr)
      have h1 : r + nb.2.2.1 = (midC (nb.1, nb.2.1) (r, c)).1 := by
        rw [← hwallEq]
      have h2 : c + nb.2.2.2 = (midC (nb.1, nb.2.1) (r, c)).2 := by
        rw [← hwallEq]
      have hstep : visitStep rows cols rng fuel r c q nb =
          visitF rows cols rng fuel
            (set2D q.1 (midC (nb.1, nb.2.1) (r, c)).1 (midC (nb.1, nb.2.1) (r, c)).2 0)
            q.2 nb.1 nb.2.1 := by
        unfold visitStep
        rw [if_pos hguard, h1, h2]
      rw [hstep]
      have hnbB : 0 ≤ nb.1 ∧ nb.1 < rows ∧ 0 ≤ nb.2.1 ∧ nb.2.1 < cols :=
        ⟨hnbRoom.1, hnbRoom.2.1, hnbRoom.2.2.1, hnbRoom.2.2.2.1⟩
      have hwsq : WellShaped rows cols q.1 := hT.ws
      have hwsms : WellShaped rows cols
          (set2D q.1 (midC (nb.1, nb.2.1) (r, c)).1 (midC (nb.1, nb.2.1) (r, c)).2 0) :=
        ws_set2D hwsq _ _ 0
      have hmsNb : cellVal
          (set2D q.1 (midC (nb.1, nb.2.1) (r, c)).1 (midC (nb.1, nb.2.1) (r, c)).2 0)
          nb.1 nb.2.1 = 1 := by
        rw [cellVal_set2D_other (by rw [Prod.mk.eta]; exact Ne.symm hwneNb) 0]
        exact hguard
      have hcrms : closedRooms rows cols
          (set2D q.1 (midC (nb.1, nb.2.1) (r, c)).1 (midC (nb.1, nb.2.1) (r, c)).2 0) =
          closedRooms rows cols q.1 := by
        refine closedRooms_congr (fun v hv => ?_)
        refine cellVal_set2D_other ?_ 0
        rw [Prod.mk.eta, Prod.mk.eta]
        exact fun he => not_room_midC hnbRoom hroom (roomNbr_symm hnbNbr) (he ▸ hv)
      have hText := treeInv_extend rows cols hr hc hT hroom hrc hnbRoom hnbNbr hguard
      obtain ⟨⟨par3, ρ3, hT3⟩, hvmono, hvfront⟩ :=
        IH (set2D q.1 (midC (nb.1, nb.2.1) (r, c)).1 (midC (nb.1, nb.2.1) (r, c)).2 0)
          q.2 nb.1 nb.2.1 (extPar par nb.1 nb.2.1 r c)
          (extRho ρ nb.1 nb.2.1 (ρ (r, c) + 1)) hnbRoom hmsNb hwsms (by omega) hText
      have hM2nb : cellVal
          (set2D (set2D q.1 (midC (nb.1, nb.2.1) (r, c)).1 (midC (nb.1, nb.2.1) (r, c)).2 0)
            nb.1 nb.2.1 0) nb.1 nb.2.1 = 0 :=
        cellVal_set2D_same hwsms hnbB.1 hnbB.2.1 hnbB.2.2.1 hnbB.2.2.2 0
      have hdec : closedRooms rows cols
          (set2D (set2D q.1 (midC (nb.1, nb.2.1) (r, c)).1 (midC (nb.1, nb.2.1) (r, c)).2 0)
            nb.1 nb.2.1 0) + 1 = closedRooms rows cols
          (set2D q.1 (midC (nb.1, nb.2.1) (r, c)).1 (midC (nb.1, nb.2.1) (r, c)).2 0) :=
        @closedRooms_dec rows cols
          (set2D q.1 (midC (nb.1, nb.2.1) (r, c)).1 (midC (nb.1, nb.2.1) (r, c)).2 0)
          (nb.1, nb.2.1) hwsms hnbRoom (by show cellVal _ nb.1 nb.2.1 ≠ 0; omega)
      have hq2rc : cellVal (visitF rows cols rng fuel
          (set2D q.1 (midC (nb.1, nb.2.1) (r, c)).1 (midC (nb.1, nb.2.1) (r, c)).2 0)
          q.2 nb.1 nb.2.1).1 r c = 0 :=
        hvmono r c (set2D_zero_mono _ _ (set2D_zero_mono _ _ hrc))
      have hq2cr : closedRooms rows cols (visitF rows cols rng fuel
          (set2D q.1 (midC (nb.1, nb.2.1) (r, c)).1 (midC (nb.1, nb.2.1) (r, c)).2 0)
          q.2 nb.1 nb.2.1).1 ≤ fuel := by
        have hle := @closedRooms_antitone rows cols _ _ hvmono
        omega
      obtain ⟨c1, c2, c3, c4, c5⟩ := ihl (fun x hx => hOKs x (List.mem_cons_of_mem nb hx))
        (visitF rows cols rng fuel
          (set2D q.1 (midC (nb.1, nb.2.1) (r, c)).1 (midC (nb.1, nb.2.1) (r, c)).2 0)
          q.2 nb.1 nb.2.1) par3 ρ3 hT3 hq2rc hq2cr
      refine ⟨c1, ?_, ?_, c4, ?_⟩
      · intro rq cq h
        exact c2 rq cq (hvmono rq cq (set2D_zero_mono _ _ (set2D_zero_mono _ _ h)))
      · intro x hx
        rcases List.mem_cons.mp hx with rfl | hx
        · exact c2 x.1 x.2.1 (hvmono x.1 x.2.1 hM2nb)
        · exact c3 x hx
      · intro v hvR hvO
        rcases c5 v hvR hvO with hOp1 | hNbr
        · rcases hvfront v hvR hOp1 with hOp2 | hNbr2
          · left
            show cellVal q.1 v.1 v.2 = 0
            have heq : cellVal
                (set2D q.1 (midC (nb.1, nb.2.1) (r, c)).1 (midC (nb.1, nb.2.1) (r, c)).2 0)
                v.1 v.2 = cellVal q.1 v.1 v.2 := by
              refine cellVal_set2D_other ?_ 0
              rw [Prod.mk.eta, Prod.mk.eta]
              exact fun he => not_room_midC hnbRoom hroom (roomNbr_symm hnbNbr) (he ▸ hvR)
            exact heq.symm.trans hOp2
          · right
            intro w hwR hwNbr
            exact c2 w.1 w.2 (hNbr2 w hwR hwNbr)
        · exact Or.inr hNbr

/-- The main specification of `visit(r, c)`: called on a still-closed room
with enough fuel, in a state whose grid (with `(r, c)` opened) satisfies
the tree invariant, it returns a grid satisfying the tree invariant in
which every room it opened has all its adjacent rooms open. -/
theorem visit_spec (rows cols : ℤ) (rng : Rng) (hr : 0 < rows) (hc : 0 < cols)
    (hperm : ∀ k l, (rng k l).Perm l) :
    ∀ (fuel : ℕ) (m : List (List ℕ)) (k : ℕ) (r c : ℤ)
      (par : Cell → Cell) (ρ : Cell → ℕ),
      Room rows cols (r, c) → cellVal m r c = 1 → WellShaped rows cols m →
      closedRooms rows cols m ≤ fuel →
      TreeInv rows cols (set2D m r c 0) par ρ →
      VisitOut rows cols m (visitF rows cols rng fuel m k r c).1 r c := by
  intro fuel
  induction fuel with
  | zero =>
    intro m k r c par ρ hroom hclosed hws hfuel hT
    have hpos : 1 ≤ closedRooms rows cols m :=
      closedRooms_pos hroom (by show cellVal m r c ≠ 0; omega)
    exact absurd hfuel (by omega)
  | succ fuel ih =>
    intro m k r c par ρ hroom hclosed hws hfuel hT
    have hrcB : 0 ≤ r ∧ r < rows ∧ 0 ≤ c ∧ c < cols :=
      ⟨hroom.1, hroom.2.1, hroom.2.2.1, hroom.2.2.2.1⟩
    have hq0rc : cellVal (set2D m r c 0) r c = 0 :=
      cellVal_set2D_same hws hrcB.1 hrcB.2.1 hrcB.2.2.1 hrcB.2.2.2 0
    have hdec : closedRooms rows cols (set2D m r c 0) + 1 = closedRooms rows cols m :=
      @closedRooms_dec rows cols m (r, c) hws hroom (by show cellVal m r c ≠ 0; omega)
    rw [visitF_succ rows cols rng fuel m k r c]
    obtain ⟨htree, hmono, hnbs, hcr, hfront⟩ :=
      visitFold_spec rows cols rng hr hc fuel r c hroom ih
        (get_neighbors rows cols rng k r c).1 (nbOK_of_mem hperm hroom)
        (set2D m r c 0, (get_neighbors rows cols rng k r c).2) par ρ hT hq0rc
        (by show closedRooms rows cols (set2D m r c 0) ≤ fuel; omega)
    constructor
    · exact htree
    · exact hmono
    · intro v hvR hvO
      rcases hfront v hvR hvO with hOp | hNbr
      · by_cases hv : v = ((r : ℤ), (c : ℤ))
        · right
          intro w hwR hwNbr
          obtain ⟨nb, hmem, he1, he2⟩ := roomNbr_mem_neighbors hperm k hwR (hv ▸ hwNbr)
          have h0 := hnbs nb hmem
          show cellVal _ w.1 w.2 = 0
          rw [← he1, ← he2]
          exact h0
        · left
          have heq : cellVal (set2D m r c 0) v.1 v.2 = cellVal m v.1 v.2 := by
            refine cellVal_set2D_other ?_ 0
            rw [Prod.mk.eta]
            exact hv
          rw [← heq]
          exact hOp
      · exact Or.inr hNbr

/-! ### Abstract rooted-forest path theory

A graph whose every edge joins a vertex to its parent under a ranked
parent map is a forest: between any two vertices there is at most one
simple path, and if both reach the root there is exactly one.  This is
developed abstractly and later instantiated with the room graph of the
generated maze and the ghost parent map of `TreeInv`. -/

/-- Iterated parent map. -/
def parIter {α : Type} (par : α → α) : ℕ → α → α
  | 0, v => v
  | n + 1, v => parIter par n (par v)

theorem parIter_succ {α : Type} (par : α → α) (n : ℕ) (v : α) :
    parIter par (n + 1) v = parIter par n (par v) := rfl

theorem parIter_succ2 {α : Type} (par : α → α) :
    ∀ (n : ℕ) (v : α), parIter par (n + 1) v = par (parIter par n v) := by
  intro n
  induction n with
  | zero => intro v; rfl
  | succ n ih =>
    intro v
    rw [parIter_succ, ih, ← parIter_succ]

/-- The parent chain from `v`, `n` steps long (so `n + 1` vertices). -/
def downList {α : Type} (par : α → α) : ℕ → α → List α
  | 0, v => [v]
  | n + 1, v => v :: downList par n (par v)

theorem downList_length {α : Type} (par : α → α) :
    ∀ (n : ℕ) (v : α), (downList par n v).length = n + 1 := by
  intro n
  induction n with
  | zero => intro v; rfl
  | succ n ih =>
    intro v
    show (v :: downList par n (par v)).length = n + 1 + 1
    rw [List.length_cons, ih]

theorem downList_head {α : Type} (par : α → α) (n : ℕ) (v : α) :
    (downList par n v).head? = some v := by
  cases n with
  | zero => rfl
  | succ n => rfl

theorem downList_last {α : Type} (par : α → α) :
    ∀ (n : ℕ) (v : α), (downList par n v).getLast? = some (parIter par n v) := by
  intro n
  induction n with
  | zero => intro v; rfl
  | succ n ih =>
    intro v
    show (v :: downList par n (par v)).getLast? = some (parIter par (n + 1) v)
    cases hd : downList par n (par v) with
    | nil =>
      have hlen := downList_length par n (par v)
      rw [hd] at hlen
      simp at hlen
    | cons b t =>
      rw [List.getLast?_cons_cons, ← hd, ih]
      rfl

theorem downList_chain {α : Type} (E : α → α → Prop) (par : α → α) :
    ∀ (n : ℕ) (v : α), (∀ i, i < n → E (parIter par i v) (parIter par (i + 1) v)) →
      (downList par n v).Chain' E := by
  intro n
  induction n with
  | zero =>
    intro v _
    exact List.chain'_singleton v
  | succ n ih =>
    intro v h
    show (v :: downList par n (par v)).Chain' E
    refine List.chain'_cons'.mpr ⟨?_, ih (par v) (fun i hi => h (i + 1) (by omega))⟩
    intro y hy
    rw [downList_head] at hy
    have hyv : y = par v := (Option.mem_some_iff.mp hy).symm
    subst hyv
    exact h 0 (by omega)

/-- Concatenation of two walks sharing an endpoint. -/
theorem walk_trans {α : Type} {E : α → α → Prop} {l1 l2 : List α} {b : α}
    (h1 : l1.Chain' E) (hl1 : l1.getLast? = some b)
    (h2 : l2.Chain' E) (hl2 : l2.head? = some b) :
    ∃ l : List α, l.Chain' E ∧ l.head? = l1.head? ∧ l.getLast? = l2.getLast? := by
  cases l2 with
  | nil => simp at hl2
  | cons x t =>
    have hx : x = b := by
      simp only [List.head?_cons] at hl2
      injection hl2
    subst hx
    obtain ⟨hbt, hct⟩ := List.chain'_cons'.mp h2
    cases l1 with
    | nil => simp at hl1
    | cons a s =>
      refine ⟨(a :: s) ++ t, ?_, ?_, ?_⟩
      · rw [List.chain'_append]
        refine ⟨h1, hct, ?_⟩
        intro y hy z hz
        have hyb : y = x := by
          rw [hl1] at hy
          exact (Option.mem_some_iff.mp hy).symm
        subst hyb
        exact hbt z hz
      · simp
      · cases t with
        | nil =>
          rw [List.append_nil, hl1]
          rfl
        | cons z u =>
          rw [List.getLast?_cons_cons]
          exact List.getLast?_append_of_ne_nil (a :: s) (List.cons_ne_nil z u)

/-- A list that is not `Nodup` contains the same element at two split
positions. -/
theorem exists_dup_split {α : Type} {l : List α} (h : ¬ l.Nodup) :
    ∃ (x : α) (l1 l2 l3 : List α), l = l1 ++ x :: l2 ++ x :: l3 := by
  induction l with
  | nil => simp at h
  | cons a t ih =>
    by_cases ha : a ∈ t
    · obtain ⟨s1, s2, hs⟩ := List.append_of_mem ha
      exact ⟨a, [], s1, s2, by rw [hs]; rfl⟩
    · have hnt : ¬ t.Nodup := fun hnd => h (List.nodup_cons.mpr ⟨ha, hnd⟩)
      obtain ⟨x, l1, l2, l3, heq⟩ := ih hnt
      exact ⟨x, a :: l1, l2, l3, by rw [heq]; rfl⟩

/-- Every walk contains a simple path with the same endpoints. -/
theorem chain_shortcut {α : Type} {E : α → α → Prop} :
    ∀ (n : ℕ) (l : List α) (v w : α), l.length ≤ n → l.Chain' E →
      l.head? = some v → l.getLast? = some w →
      ∃ p : List α, p.Chain' E ∧ p.head? = some v ∧ p.getLast? = some w ∧ p.Nodup := by
  intro n
  induction n with
  | zero =>
    intro l v w hlen hch hh hl
    have h0 : l = [] := List.length_eq_zero.mp (by omega)
    rw [h0] at hh
    simp at hh
  | succ n ihn =>
    intro l v w hlen hch hh hl
    by_cases hnd : l.Nodup
    · exact ⟨l, hch, hh, hl, hnd⟩
    · obtain ⟨x, l1, l2, l3, heq⟩ := exists_dup_split hnd
      subst heq
      have hch2 : (l1 ++ x :: l3).Chain' E := by
        rw [List.chain'_append] at hch
        obtain ⟨d1, d2, dlink⟩ := hch
        rw [List.chain'_append] at d1
        obtain ⟨e1, e2, elink⟩ := d1
        rw [List.chain'_append]
        refine ⟨e1, d2, ?_⟩
        intro a ha b hb
        refine elink a ha b ?_
        simp only [List.head?_cons] at hb ⊢
        exact hb
      have hh2 : (l1 ++ x :: l3).head? = some v := by
        cases l1 with
        | nil => simpa using hh
        | cons a s => simpa using hh
      have hl2e : (l1 ++ x :: l3).getLast? = some w := by
        rw [List.getLast?_append_of_ne_nil l1 (List.cons_ne_nil x l3)]
        rw [List.getLast?_append_of_ne_nil (l1 ++ x :: l2) (List.cons_ne_nil x l3)] at hl
        exact hl
      have hlen2 : (l1 ++ x :: l3).length ≤ n := by
        simp only [List.length_append, List.length_cons] at hlen ⊢
        omega
      exact ihn (l1 ++ x :: l3) v w hlen2 hch2 hh2 hl2e

theorem getD_eq_get_of_lt {α : Type} (l : List α) (d : α) {i : ℕ} (h : i < l.length) :
    l.getD i d = l.get ⟨i, h⟩ := by
  rw [List.getD_eq_getElem?_getD, List.getElem?_eq_getElem h]
  rfl

/-- In a ranked parent structure every vertex of `R` reaches the root by
iterating the parent map. -/
theorem exists_depth {α : Type} (E : α → α → Prop) (R : α → Prop) (par : α → α)
    (ρ : α → ℕ) (root : α)
    (hmem : ∀ v w, E v w → R v ∧ R w)
    (hparE : ∀ v, R v → v ≠ root → E v (par v))
    (hrho : ∀ v, R v → v ≠ root → ρ v = ρ (par v) + 1) :
    ∀ (n : ℕ) (v : α), ρ v ≤ n → R v → ∃ j, parIter par j v = root ∧
      (∀ i, i ≤ j → R (parIter par i v)) ∧
      (∀ i, i < j → parIter par i v ≠ root) := by
  intro n
  induction n with
  | zero =>
    intro v hρv hR
    by_cases hv : v = root
    · subst hv
      refine ⟨0, rfl, ?_, ?_⟩
      · intro i hi
        rw [Nat.le_zero.mp hi]
        exact hR
      · intro i hi
        exact absurd hi (by omega)
    · exact absurd (hrho v hR hv) (by omega)
  | succ n ihn =>
    intro v hρv hR
    by_cases hv : v = root
    · subst hv
      refine ⟨0, rfl, ?_, ?_⟩
      · intro i hi
        rw [Nat.le_zero.mp hi]
        exact hR
      · intro i hi
        exact absurd hi (by omega)
    · have hE := hparE v hR hv
      have hRp : R (par v) := (hmem _ _ hE).2
      have hρp : ρ (par v) ≤ n := by
        have := hrho v hR hv
        omega
      obtain ⟨j, hj1, hj2, hj3⟩ := ihn (par v) hρp hRp
      refine ⟨j + 1, hj1, ?_, ?_⟩
      · intro i hi
        cases i with
        | zero => exact hR
        | succ i => exact hj2 i (by omega)
      · intro i hi
        cases i with
        | zero => exact hv
        | succ i => exact hj3 i (by omega)

/-- Valley decomposition of a simple path in a graph whose edges all join a
vertex to its parent: the path follows parent steps from `v` down to a
common ancestor and then child steps up to `w`, and its vertices and length
are determined by the two step counts. -/
theorem path_shape {α : Type} [DecidableEq α] (E : α → α → Prop) (R : α → Prop)
    (par : α → α) (ρ : α → ℕ) (root : α)
    (hmem : ∀ v w, E v w → R v ∧ R w)
    (hchar : ∀ v w, E v w → (v ≠ root ∧ par v = w) ∨ (w ≠ root ∧ par w = v))
    (hrho : ∀ v, R v → v ≠ root → ρ v = ρ (par v) + 1)
    (l : List α) (v w : α)
    (hch : l.Chain' E) (hnd : l.Nodup) (hh : l.head? = some v)
    (hl : l.getLast? = some w) :
    ∃ j k : ℕ, l.length = j + k + 1 ∧ parIter par j v = parIter par k w ∧
      (∀ i : ℕ, i ≤ j → l.getD i v = parIter par i v) ∧
      (∀ t : ℕ, t ≤ k → l.getD (l.length - 1 - t) v = parIter par t w) ∧
      (∀ i : ℕ, i ≤ j → ρ v = ρ (parIter par i v) + i) ∧
      (∀ t : ℕ, t ≤ k → ρ w = ρ (parIter par t w) + t) := by
  have hne : l ≠ [] := by
    intro he
    rw [he] at hh
    simp at hh
  have hN : 0 < l.length := List.length_pos.mpr hne
  have hx0 : l.getD 0 v = v := by
    have h0 : l[0]? = some v := by
      rw [← List.head?_eq_getElem?]
      exact hh
    rw [List.getD_eq_getElem?_getD, h0]
    rfl
  have hxN : l.getD (l.length - 1) v = w := by
    have h0 : l[l.length - 1]? = some w := by
      rw [← List.getLast?_eq_getElem?]
      exact hl
    rw [List.getD_eq_getElem?_getD, h0]
    rfl
  have hstepx : ∀ i : ℕ, i + 1 < l.length → E (l.getD i v) (l.getD (i + 1) v) := by
    intro i hi
    have h0 := List.chain'_iff_get.mp hch i (by omega)
    rw [getD_eq_get_of_lt l v (show i < l.length by omega),
      getD_eq_get_of_lt l v (show i + 1 < l.length by omega)]
    exact h0
  have hinj : ∀ i1 i2 : ℕ, i1 < l.length → i2 < l.length →
      l.getD i1 v = l.getD i2 v → i1 = i2 := by
    intro i1 i2 hi1 hi2 he
    rw [getD_eq_get_of_lt l v hi1, getD_eq_get_of_lt l v hi2] at he
    have h0 := List.nodup_iff_injective_get.mp hnd he
    rw [Fin.mk.injEq] at h0
    exact h0
  have hPC : ∀ i : ℕ, i + 1 < l.length →
      (l.getD i v ≠ root ∧ par (l.getD i v) = l.getD (i + 1) v) ∨
      (l.getD (i + 1) v ≠ root ∧ par (l.getD (i + 1) v) = l.getD i v) :=
    fun i hi => hchar _ _ (hstepx i hi)
  have hCC : ∀ i : ℕ, i + 1 + 1 < l.length →
      (l.getD (i + 1) v ≠ root ∧ par (l.getD (i + 1) v) = l.getD i v) →
      (l.getD (i + 1 + 1) v ≠ root ∧ par (l.getD (i + 1 + 1) v) = l.getD (i + 1) v) := by
    intro i hi hc
    rcases hPC (i + 1) hi with hp | hc2
    · exfalso
      have he : l.getD i v = l.getD (i + 1 + 1) v := by
        rw [← hc.2, hp.2]
      have h0 := hinj i (i + 1 + 1) (by omega) (by omega) he
      omega
    · exact hc2
  obtain ⟨j, hjlt, hPbelow, hCabove⟩ :
      ∃ j : ℕ, j < l.length ∧
        (∀ i : ℕ, i < j → i + 1 < l.length ∧ l.getD i v ≠ root ∧
          par (l.getD i v) = l.getD (i + 1) v) ∧
        (∀ i : ℕ, j ≤ i → i + 1 < l.length → l.getD (i + 1) v ≠ root ∧
          par (l.getD (i + 1) v) = l.getD i v) := by
    by_cases hex : ∃ i : ℕ, i + 1 < l.length ∧ l.getD (i + 1) v ≠ root ∧
        par (l.getD (i + 1) v) = l.getD i v
    · have hj0 := Nat.find_spec hex
      refine ⟨Nat.find hex, by have := hj0.1; omega, ?_, ?_⟩
      · intro i hi
        have hnotC := Nat.find_min hex hi
        have hi1 : i + 1 < l.length := by have := hj0.1; omega
        rcases hPC i hi1 with hp | hc
        · exact ⟨hi1, hp⟩
        · exact absurd ⟨hi1, hc⟩ hnotC
      · have hstepC : ∀ d : ℕ, Nat.find hex + d + 1 < l.length →
            l.getD (Nat.find hex + d + 1) v ≠ root ∧
            par (l.getD (Nat.find hex + d + 1) v) = l.getD (Nat.find hex + d) v := by
          intro d
          induction d with
          | zero =>
            intro _
            exact hj0.2
          | succ d ihd =>
            intro h0
            have hcc := hCC (Nat.find hex + d) (by omega) (ihd (by omega))
            have hidx1 : Nat.find hex + d + 1 + 1 = Nat.find hex + (d + 1) + 1 := by omega
            have hidx2 : Nat.find hex + d + 1 = Nat.find hex + (d + 1) := by omega
            rw [hidx1, hidx2] at hcc
            exact hcc
        intro i hji hi1
        have hd := hstepC (i - Nat.find hex) (by omega)
        have hidx : Nat.find hex + (i - Nat.find hex) = i := by omega
        rw [hidx] at hd
        exact hd
    · refine ⟨l.length - 1, by omega, ?_, ?_⟩
      · intro i hi
        have hi1 : i + 1 < l.length := by omega
        rcases hPC i hi1 with hp | hc
        · exact ⟨hi1, hp⟩
        · exact absurd ⟨i, hi1, hc.1, hc.2⟩ hex
      · intro i hji hi1
        exact absurd hi1 (by omega)
  have hdown : ∀ i : ℕ, i ≤ j → l.getD i v = parIter par i v := by
    intro i
    induction i with
    | zero =>
      intro _
      exact hx0
    | succ i ihd =>
      intro hij
      have hp := hPbelow i (by omega)
      rw [← hp.2.2, ihd (by omega), parIter_succ2]
  have hρdown : ∀ i : ℕ, i ≤ j → ρ v = ρ (parIter par i v) + i := by
    intro i
    induction i with
    | zero =>
      intro _
      rfl
    | succ i ihd =>
      intro hij
      have hp := hPbelow i (by omega)
      have hRi : R (l.getD i v) := (hmem _ _ (hstepx i hp.1)).1
      have hr := hrho (l.getD i v) hRi hp.2.1
      rw [hp.2.2] at hr
      rw [hdown i (by omega), hdown (i + 1) (by omega)] at hr
      have hi2 := ihd (by omega)
      omega
  have hup : ∀ t : ℕ, t ≤ l.length - 1 - j →
      l.getD (l.length - 1 - t) v = parIter par t w := by
    intro t
    induction t with
    | zero =>
      intro _
      rw [Nat.sub_zero]
      exact hxN
    | succ t ihd =>
      intro htk
      have hi1 : j ≤ l.length - 2 - t := by omega
      have hi2 : (l.length - 2 - t) + 1 < l.length := by omega
      have hc := hCabove (l.length - 2 - t) hi1 hi2
      have hidx : l.length - 2 - t + 1 = l.length - 1 - t := by omega
      rw [hidx] at hc
      have hgoalidx : l.length - 1 - (t + 1) = l.length - 2 - t := by omega
      rw [hgoalidx, ← hc.2, ihd (by omega), parIter_succ2]
  have hρup : ∀ t : ℕ, t ≤ l.length - 1 - j →
      ρ w = ρ (parIter par t w) + t := by
    intro t
    induction t with
    | zero =>
      intro _
      rfl
    | succ t ihd =>
      intro htk
      have hi1 : j ≤ l.length - 2 - t := by omega
      have hi2 : (l.length - 2 - t) + 1 < l.length := by omega
      have hc := hCabove (l.length - 2 - t) hi1 hi2
      have hidx : l.length - 2 - t + 1 = l.length - 1 - t := by omega
      rw [hidx] at hc
      have hRt : R (l.getD (l.length - 1 - t) v) := by
        have h0 := (hmem _ _ (hstepx (l.length - 2 - t) hi2)).2
        rw [hidx] at h0
        exact h0
      have hr := hrho _ hRt hc.1
      rw [hc.2] at hr
      rw [hup t (by omega)] at hr
      have hupt1 : l.getD (l.length - 2 - t) v = parIter par (t + 1) w := by
        have h0 := hup (t + 1) (by omega)
        rw [show l.length - 1 - (t + 1) = l.length - 2 - t from by omega] at h0
        exact h0
      rw [hupt1] at hr
      have hi3 := ihd (by omega)
      omega
  have hmeet : parIter par j v = parIter par (l.length - 1 - j) w := by
    have h1 := hdown j (le_refl j)
    have h2 := hup (l.length - 1 - j) (le_refl _)
    rw [show l.length - 1 - (l.length - 1 - j) = j from by omega] at h2
    rw [h1] at h2
    exact h2
  exact ⟨j, l.length - 1 - j, by omega, hmeet, hdown, hup, hρdown, hρup⟩

theorem getD_eq_getElem_of_lt {α : Type} (l : List α) (d : α) {i : ℕ}
    (h : i < l.length) : l.getD i d = l[i] := by
  rw [List.getD_eq_getElem?_getD, List.getElem?_eq_getElem h]
  rfl

/-- In a ranked parent forest, simple paths between two fixed vertices are
unique. -/
theorem spath_unique {α : Type} [DecidableEq α] (E : α → α → Prop) (R : α → Prop)
    (par : α → α) (ρ : α → ℕ) (root : α)
    (hmem : ∀ v w, E v w → R v ∧ R w)
    (hchar : ∀ v w, E v w → (v ≠ root ∧ par v = w) ∨ (w ≠ root ∧ par w = v))
    (hrho : ∀ v, R v → v ≠ root → ρ v = ρ (par v) + 1)
    (v w : α) (l1 l2 : List α)
    (hch1 : l1.Chain' E) (hnd1 : l1.Nodup) (hh1 : l1.head? = some v)
    (hl1 : l1.getLast? = some w)
    (hch2 : l2.Chain' E) (hnd2 : l2.Nodup) (hh2 : l2.head? = some v)
    (hl2 : l2.getLast? = some w) :
    l1 = l2 := by
  obtain ⟨j1, k1, hlen1, hmeet1, hdown1, hup1, hρv1, hρw1⟩ :=
    path_shape E R par ρ root hmem hchar hrho l1 v w hch1 hnd1 hh1 hl1
  obtain ⟨j2, k2, hlen2, hmeet2, hdown2, hup2, hρv2, hρw2⟩ :=
    path_shape E R par ρ root hmem hchar hrho l2 v w hch2 hnd2 hh2 hl2
  have cross : ∀ (ja ka jb kb : ℕ) (lb : List α),
      parIter par ja v = parIter par ka w →
      ρ v = ρ (parIter par ja v) + ja → ρ w = ρ (parIter par ka w) + ka →
      lb.Nodup → lb.length = jb + kb + 1 →
      parIter par jb v = parIter par kb w →
      ρ v = ρ (parIter par jb v) + jb → ρ w = ρ (parIter par kb w) + kb →
      (∀ i : ℕ, i ≤ jb → lb.getD i v = parIter par i v) →
      (∀ t : ℕ, t ≤ kb → lb.getD (lb.length - 1 - t) v = parIter par t w) →
      ja < jb → False := by
    intro ja ka jb kb lb hmeetA hρvA hρwA hndB hlenB hmeetB hρvB hρwB hdownB hupB hlt
    have hka : ka < kb := by
      rw [hmeetA] at hρvA
      rw [hmeetB] at hρvB
      omega
    have hocc1 : lb.getD ja v = parIter par ja v := hdownB ja (by omega)
    have hocc2 : lb.getD (lb.length - 1 - ka) v = parIter par ka w := hupB ka (by omega)
    have heq2 : lb.getD ja v = lb.getD (lb.length - 1 - ka) v := by
      rw [hocc1, hocc2, hmeetA]
    have hb1 : ja < lb.length := by omega
    have hb2 : lb.length - 1 - ka < lb.length := by omega
    rw [getD_eq_get_of_lt lb v hb1, getD_eq_get_of_lt lb v hb2] at heq2
    have h0 := List.nodup_iff_injective_get.mp hndB heq2
    rw [Fin.mk.injEq] at h0
    omega
  rcases Nat.lt_trichotomy j1 j2 with hlt | hje | hlt
  · exact (cross j1 k1 j2 k2 l2 hmeet1 (hρv1 j1 (le_refl _)) (hρw1 k1 (le_refl _))
      hnd2 hlen2 hmeet2 (hρv2 j2 (le_refl _)) (hρw2 k2 (le_refl _))
      hdown2 hup2 hlt).elim
  · subst hje
    have hk : k1 = k2 := by
      have a1 := hρv1 j1 (le_refl _)
      have a2 := hρv2 j1 (le_refl _)
      have b1 := hρw1 k1 (le_refl _)
      have b2 := hρw2 k2 (le_refl _)
      rw [hmeet1] at a1
      rw [hmeet2] at a2
      omega
    subst hk
    have hlen : l1.length = l2.length := by omega
    refine List.ext_getElem hlen ?_
    intro i hi1 hi2
    rw [← getD_eq_getElem_of_lt l1 v hi1, ← getD_eq_getElem_of_lt l2 v hi2]
    by_cases hij : i ≤ j1
    · rw [hdown1 i hij, hdown2 i hij]
    · have ht1 : l1.length - 1 - (l1.length - 1 - i) = i := by omega
      have ht2 : l2.length - 1 - (l2.length - 1 - i) = i := by omega
      have e1 := hup1 (l1.length - 1 - i) (by omega)
      have e2 := hup2 (l2.length - 1 - i) (by omega)
      rw [ht1] at e1
      rw [ht2] at e2
      rw [e1, e2, hlen]
  · exact (cross j2 k2 j1 k1 l1 hmeet2 (hρv2 j2 (le_refl _)) (hρw2 k2 (le_refl _))
      hnd1 hlen1 hmeet1 (hρv1 j1 (le_refl _)) (hρw1 k1 (le_refl _))
      hdown1 hup1 hlt).elim

/-- In a symmetric ranked parent forest, any two vertices of `R` are joined
by a simple path. -/
theorem spath_exists {α : Type} {E : α → α → Prop} (R : α → Prop)
    (par : α → α) (ρ : α → ℕ) (root : α)
    (hsymm : ∀ v w, E v w → E w v)
    (hmem : ∀ v w, E v w → R v ∧ R w)
    (hparE : ∀ v, R v → v ≠ root → E v (par v))
    (hrho : ∀ v, R v → v ≠ root → ρ v = ρ (par v) + 1)
    (v w : α) (hv : R v) (hw : R w) :
    ∃ l : List α, l.Chain' E ∧ l.head? = some v ∧ l.getLast? = some w ∧ l.Nodup := by
  obtain ⟨jv, hv1, hv2, hv3⟩ := exists_depth E R par ρ root hmem hparE hrho (ρ v) v
    (le_refl _) hv
  obtain ⟨jw, hw1, hw2, hw3⟩ := exists_depth E R par ρ root hmem hparE hrho (ρ w) w
    (le_refl _) hw
  have hchv : (downList par jv v).Chain' E := by
    refine downList_chain E par jv v (fun i hi => ?_)
    rw [parIter_succ2]
    exact hparE _ (hv2 i (by omega)) (hv3 i hi)
  have hchw : (downList par jw w).Chain' E := by
    refine downList_chain E par jw w (fun i hi => ?_)
    rw [parIter_succ2]
    exact hparE _ (hw2 i (by omega)) (hw3 i hi)
  have hchwr : ((downList par jw w).reverse).Chain' E := by
    rw [List.chain'_reverse]
    exact List.Chain'.imp (fun a b hab => hsymm a b hab) hchw
  obtain ⟨l, hch, hh, hl⟩ := walk_trans hchv (by rw [downList_last, hv1])
    hchwr (by rw [List.head?_reverse, downList_last, hw1])
  obtain ⟨p, pch, ph, pl, pnd⟩ := chain_shortcut l.length l v w (le_refl _) hch
    (by rw [hh, downList_head]) (by rw [hl, List.getLast?_reverse, downList_head])
  exact ⟨p, pch, ph, pl, pnd⟩

/-- The grid returned by `generate_maze` carries a ranked spanning
structure: every room is open, every room-graph edge joins a room to its
ghost parent, every non-start room has an edge to its parent, and the rank
drops along parent edges. -/
theorem generate_maze_tree (rows cols : ℤ) (rng : Rng)
    (hr : 0 < rows) (hc : 0 < cols) (hperm : ∀ k l, (rng k l).Perm l) :
    ∃ (m : List (List ℕ)) (par : Cell → Cell) (ρ : Cell → ℕ),
      generate_maze rows cols rng = some m ∧
      (∀ v : Cell, Room rows cols v → isOpen m v) ∧
      (∀ v w : Cell, roomEdge rows cols m v w →
        (v ≠ ((0 : ℤ), (0 : ℤ)) ∧ par v = w) ∨
        (w ≠ ((0 : ℤ), (0 : ℤ)) ∧ par w = v)) ∧
      (∀ v : Cell, Room rows cols v → v ≠ ((0 : ℤ), (0 : ℤ)) →
        roomEdge rows cols m v (par v)) ∧
      (∀ v : Cell, Room rows cols v → v ≠ ((0 : ℤ), (0 : ℤ)) →
        ρ v = ρ (par v) + 1) := by
  set M0 : List (List ℕ) := List.replicate rows.toNat (List.replicate cols.toNat 1)
    with hM0def
  set Q1 : List (List ℕ) :=
    (visitF rows cols rng (rows.toNat * cols.toNat + 1) M0 0 0 0).1 with hQ1def
  set M2 : List (List ℕ) := set2D Q1 0 0 0 with hM2def
  set M3 : List (List ℕ) := set2D M2 (rows - 1) (cols - 1) 0 with hM3def
  have hroom00 : Room rows cols ((0 : ℤ), (0 : ℤ)) := room_origin hr hc
  have hws0 : WellShaped rows cols M0 := ws_replicate rows cols
  have hgen : generate_maze rows cols rng = some M3 := by
    unfold generate_maze
    rw [if_neg (by omega)]
  have hcl00 : cellVal M0 0 0 = 1 := cellVal_replicate_one rows cols 0 0
  have hfuel : closedRooms rows cols M0 ≤ rows.toNat * cols.toNat + 1 := by
    have h0 := closedRooms_le rows cols M0
    omega
  have hT0 : TreeInv rows cols (set2D M0 0 0 0) (fun _ => (0, 0)) (fun _ => 0) := by
    constructor
    · exact ws_set2D hws0 0 0 0
    · intro rq cq
      rcases cellVal_set2D_zero_cases M0 0 0 rq cq with h0 | h0
      · exact Or.inl h0
      · rw [h0]
        exact Or.inr (cellVal_replicate_one rows cols rq cq)
    · exact cellVal_set2D_same hws0 (by omega) hr (by omega) hc 0
    · intro u ub1 ub2 ub3 ub4 unr uop
      exfalso
      have hune : (u.1, u.2) ≠ ((0 : ℤ), (0 : ℤ)) := by
        rw [Prod.mk.eta]
        exact fun he => unr (he ▸ hroom00)
      have h1 : cellVal (set2D M0 0 0 0) u.1 u.2 = cellVal M0 u.1 u.2 :=
        cellVal_set2D_other hune 0
      have h2 : cellVal M0 u.1 u.2 = 1 := cellVal_replicate_one rows cols u.1 u.2
      have h3 : cellVal (set2D M0 0 0 0) u.1 u.2 = 0 := uop
      omega
    · intro v hvR hvO hv0
      exfalso
      have hvne : (v.1, v.2) ≠ ((0 : ℤ), (0 : ℤ)) := by
        rw [Prod.mk.eta]
        exact hv0
      have h1 : cellVal (set2D M0 0 0 0) v.1 v.2 = cellVal M0 v.1 v.2 :=
        cellVal_set2D_other hvne 0
      have h2 : cellVal M0 v.1 v.2 = 1 := cellVal_replicate_one rows cols v.1 v.2
      have h3 : cellVal (set2D M0 0 0 0) v.1 v.2 = 0 := hvO
      omega
  obtain ⟨htree, hmonoF, hfrontF⟩ :=
    visit_spec rows cols rng hr hc hperm (rows.toNat * cols.toNat + 1) M0 0 0 0
      (fun _ => (0, 0)) (fun _ => 0) hroom00 hcl00 hws0 hfuel hT0
  obtain ⟨parF, ρF, hTF0⟩ := htree
  have hTF : TreeInv rows cols Q1 parF ρF := hTF0
  have hmono2 : ∀ rq cq : ℤ, cellVal (set2D M0 0 0 0) rq cq = 0 →
      cellVal Q1 rq cq = 0 := hmonoF
  have hfront2 : ∀ v : Cell, Room rows cols v → isOpen Q1 v →
      cellVal M0 v.1 v.2 = 0 ∨
      ∀ w : Cell, Room rows cols w → RoomNbr v w → isOpen Q1 w := hfrontF
  have hopen00 : cellVal Q1 0 0 = 0 :=
    hmono2 0 0 (cellVal_set2D_same hws0 (by omega) hr (by omega) hc 0)
  -- completeness: every room ends open, by induction on the coordinate sum
  have hall : ∀ n : ℕ, ∀ v : Cell, (v.1 + v.2).toNat ≤ n → Room rows cols v →
      isOpen Q1 v := by
    intro n
    induction n with
    | zero =>
      intro v hsum hvR
      obtain ⟨b1, b2, b3, b4, p1, p2⟩ := hvR
      have hv1 : v.1 = 0 := by omega
      have hv2 : v.2 = 0 := by omega
      show cellVal Q1 v.1 v.2 = 0
      rw [hv1, hv2]
      exact hopen00
    | succ n ihn =>
      intro v hsum hvR
      by_cases h00 : v = ((0 : ℤ), (0 : ℤ))
      · show cellVal Q1 v.1 v.2 = 0
        rw [h00]
        exact hopen00
      · obtain ⟨b1, b2, b3, b4, p1, p2⟩ := hvR
        have hbig : 2 ≤ v.1 ∨ 2 ≤ v.2 := by
          by_contra hcon
          push_neg at hcon
          have hv1 : v.1 = 0 := by omega
          have hv2 : v.2 = 0 := by omega
          exact h00 (Prod.ext_iff.mpr ⟨hv1, hv2⟩)
        rcases hbig with h2 | h2
        · have huR : Room rows cols (v.1 - 2, v.2) :=
            ⟨by omega, by omega, b3, b4, by omega, p2⟩
          have huO := ihn (v.1 - 2, v.2) (by omega) huR
          rcases hfront2 (v.1 - 2, v.2) huR huO with hopen0 | hnbrs
          · exfalso
            have hone : cellVal M0 (v.1 - 2) v.2 = 1 :=
              cellVal_replicate_one rows cols (v.1 - 2) v.2
            have hzero : cellVal M0 (v.1 - 2) v.2 = 0 := hopen0
            omega
          · refine hnbrs v ⟨b1, b2, b3, b4, p1, p2⟩ (Or.inr ⟨rfl, Or.inl ?_⟩)
            show v.1 = v.1 - 2 + 2
            omega
        · have huR : Room rows cols (v.1, v.2 - 2) :=
            ⟨b1, b2, by omega, by omega, p1, by omega⟩
          have huO := ihn (v.1, v.2 - 2) (by omega) huR
          rcases hfront2 (v.1, v.2 - 2) huR huO with hopen0 | hnbrs
          · exfalso
            have hone : cellVal M0 v.1 (v.2 - 2) = 1 :=
              cellVal_replicate_one rows cols v.1 (v.2 - 2)
            have hzero : cellVal M0 v.1 (v.2 - 2) = 0 := hopen0
            omega
          · refine hnbrs v ⟨b1, b2, b3, b4, p1, p2⟩ (Or.inl ⟨rfl, Or.inl ?_⟩)
            show v.2 = v.2 - 2 + 2
            omega
  have hallQ : ∀ v : Cell, Room rows cols v → isOpen Q1 v :=
    fun v hv => hall (v.1 + v.2).toNat v (le_refl _) hv
  -- transporting cell values through the final two forced writes
  have hQ1ws : WellShaped rows cols Q1 := hTF.ws
  have hM2val : ∀ rq cq : ℤ, cellVal M2 rq cq = cellVal Q1 rq cq := by
    intro rq cq
    by_cases he : (rq, cq) = ((0 : ℤ), (0 : ℤ))
    · rw [Prod.mk.injEq] at he
      rw [he.1, he.2]
      rw [show cellVal M2 0 0 = 0 from
        cellVal_set2D_same hQ1ws (by omega) hr (by omega) hc 0]
      rw [hTF.root]
    · exact cellVal_set2D_other he 0
  have hM3val : ∀ rq cq : ℤ, (rq, cq) ≠ ((rows - 1 : ℤ), (cols - 1 : ℤ)) →
      cellVal M3 rq cq = cellVal Q1 rq cq := by
    intro rq cq hne
    rw [show cellVal M3 rq cq = cellVal M2 rq cq from cellVal_set2D_other hne 0, hM2val]
  have hM3corner : cellVal M3 (rows - 1) (cols - 1) = 0 :=
    cellVal_set2D_same (ws_set2D hQ1ws 0 0 0) (by omega) (by omega) (by omega)
      (by omega) 0
  have hallM3 : ∀ v : Cell, Room rows cols v → isOpen M3 v := by
    intro v hv
    show cellVal M3 v.1 v.2 = 0
    by_cases he : (v.1, v.2) = ((rows - 1 : ℤ), (cols - 1 : ℤ))
    · rw [Prod.mk.injEq] at he
      rw [he.1, he.2]
      exact hM3corner
    · rw [hM3val v.1 v.2 he]
      exact hallQ v hv
  have hedge : ∀ v w : Cell, roomEdge rows cols M3 v w ↔ roomEdge rows cols Q1 v w := by
    intro v w
    have hmid : ∀ (hv : Room rows cols v) (hw : Room rows cols w), RoomNbr v w →
        cellVal M3 (midC v w).1 (midC v w).2 = cellVal Q1 (midC v w).1 (midC v w).2 := by
      intro hv hw hn
      refine hM3val _ _ ?_
      rw [Prod.mk.eta]
      exact midC_ne_corner hv hw hn
    constructor
    · rintro ⟨h1, h2, h3, h4, h5, h6⟩
      refine ⟨h1, h2, hallQ v h1, hallQ w h2, h5, ?_⟩
      show cellVal Q1 (midC v w).1 (midC v w).2 = 0
      rw [← hmid h1 h2 h5]
      exact h6
    · rintro ⟨h1, h2, h3, h4, h5, h6⟩
      refine ⟨h1, h2, hallM3 v h1, hallM3 w h2, h5, ?_⟩
      show cellVal M3 (midC v w).1 (midC v w).2 = 0
      rw [hmid h1 h2 h5]
      exact h6
  have hcharQ : ∀ v w : Cell, roomEdge rows cols Q1 v w →
      (v ≠ ((0 : ℤ), (0 : ℤ)) ∧ parF v = w) ∨
      (w ≠ ((0 : ℤ), (0 : ℤ)) ∧ parF w = v) := by
    intro v w he
    obtain ⟨h1, h2, h3, h4, h5, h6⟩ := he
    obtain ⟨mb1, mb2, mb3, mb4, modd, mne1, mne2⟩ := midC_props h1 h2 h5
    obtain ⟨u, huR, huO, hu0, hueq⟩ :=
      hTF.wallPar (midC v w) mb1 mb2 mb3 mb4 (not_room_midC h1 h2 h5) h6
    obtain ⟨q1, q2, q3, q4, q5⟩ := hTF.roomPar u huR huO hu0
    rcases mid_pair_eq h1 h2 huR q1 h5 q3 hueq with ⟨ha, hb⟩ | ⟨ha, hb⟩
    · left
      constructor
      · rw [ha]
        exact hu0
      · rw [ha, hb]
    · right
      constructor
      · rw [hb]
        exact hu0
      · rw [hb, ha]
  have hparQ : ∀ v : Cell, Room rows cols v → v ≠ ((0 : ℤ), (0 : ℤ)) →
      roomEdge rows cols Q1 v (parF v) := by
    intro v hv h0
    obtain ⟨q1, q2, q3, q4, q5⟩ := hTF.roomPar v hv (hallQ v hv) h0
    exact ⟨hv, q1, hallQ v hv, q2, q3, q4⟩
  refine ⟨M3, parF, ρF, hgen, hallM3, ?_, ?_, ?_⟩
  · intro v w he
    exact hcharQ v w ((hedge v w).mp he)
  · intro v hv h0
    exact (hedge v (parF v)).mpr (hparQ v hv h0)
  · intro v hv h0
    exact (hTF.roomPar v hv (hallQ v hv) h0).2.2.2.2

/--
**C6**: for every positive `rows` and `cols` and every family of shuffle
outcomes that permutes its input (the model of `random.shuffle`),
`generate_maze` succeeds and its grid is a perfect maze on the room graph:
every room cell is open, and between any two room cells there is exactly
one simple path through open wall cells — in particular every open room is
reachable from the start room `(0, 0)`, and the open rooms with their wall
openings form a spanning tree.
-/
theorem generate_maze_perfect (rows cols : ℤ) (rng : Rng)
    (hr : 0 < rows) (hc : 0 < cols) (hperm : ∀ k l, (rng k l).Perm l) :
    ∃ m, generate_maze rows cols rng = some m ∧
      (∀ v : Cell, Room rows cols v → isOpen m v) ∧
      (∀ v w : Cell, Room rows cols v → Room rows cols w →
        ∃! l : List Cell, SimplePath rows cols m l v w) := by
  obtain ⟨m, par, ρ, hgen, hall, hchar, hparE, hρ⟩ :=
    generate_maze_tree rows cols rng hr hc hperm
  refine ⟨m, hgen, hall, ?_⟩
  intro v w hv hw
  have hmem : ∀ a b : Cell, roomEdge rows cols m a b →
      Room rows cols a ∧ Room rows cols b :=
    fun a b he => ⟨he.1, he.2.1⟩
  obtain ⟨l0, hch, hh, hl, hnd⟩ :=
    @spath_exists Cell (roomEdge rows cols m) (Room rows cols) par ρ
      ((0 : ℤ), (0 : ℤ)) (fun a b he => roomEdge_symm he) hmem hparE hρ v w hv hw
  refine ⟨l0, ⟨hch, hh, hl, hnd⟩, ?_⟩
  intro l1 hl1
  obtain ⟨c1, c2, c3, c4⟩ := hl1
  exact spath_unique (roomEdge rows cols m) (Room rows cols) par ρ
    ((0 : ℤ), (0 : ℤ)) hmem hchar hρ v w l1 l0 c1 c4 c2 c3 hch hnd hh hl

/--
**C7** (counterexample): `astar` called with `start = goal = (0,0)` on the
all-wall grid `[[1]]` — an endpoint on a wall cell — does not fail with any
`InvalidEndpoint` error: it returns a successful single-cell path.
-/
theorem astar_c7_counterexample :
    astar [[1]] (0, 0) (0, 0) =
      some (some [(0, 0)], [⟨(0, 0), 0, 0, 0, [], AStatus.GoalReached⟩]) := by
  decide

/--
**C7** (amended): neither operation validates its inputs.  `generate_maze`
with non-positive dimensions does not signal a designated
`InvalidDimensions` error: its first grid write `maze[0][0] = 0` raises an
uncaught `IndexError` (modelled by `none`).  `astar` performs no endpoint
check at all: called with a start on a wall cell it runs the search
normally and (here, with `start = goal`) returns a path instead of an
`InvalidEndpoint` error.
-/
theorem no_input_validation :
    (∀ (rows cols : ℤ) (rng : Rng), rows ≤ 0 ∨ cols ≤ 0 →
      generate_maze rows cols rng = none) ∧
    (∀ (grid : List (List ℕ)) (s : Cell), ¬ isOpen grid s →
      astar grid s s =
        some (some [s], [⟨s, 0, 0, 0, [], AStatus.GoalReached⟩])) := by
  constructor
  · intro rows cols rng h
    simp [generate_maze, h]
  · intro grid s _
    exact astar_self_run grid s

/-- **C7** (amended, witness): instantiated at `generate_maze 0 3` and at
the all-wall grid `[[1]]`. -/
theorem no_input_validation_witness :
    generate_maze 0 3 (fun _ l => l) = none ∧
    astar [[1]] (0, 0) (0, 0) =
      some (some [(0, 0)], [⟨(0, 0), 0, 0, 0, [], AStatus.GoalReached⟩]) :=
  ⟨no_input_validation.1 0 3 (fun _ l => l) (Or.inl (by omega)),
   no_input_validation.2 [[1]] (0, 0) (by decide)⟩

/--
**C8** (determinism): maze generation depends only on `rows`, `cols` and
the injected random source — the only entropy input.  Two calls whose
random sources answer every shuffle identically produce bit-identical
grids; in particular two calls with the same seed (hence the same shuffle
stream) agree.
-/
theorem generate_maze_deterministic (rows cols : ℤ) (rng1 rng2 : Rng)
    (h : ∀ k l, rng1 k l = rng2 k l) :
    generate_maze rows cols rng1 = generate_maze rows cols rng2 := by
  have : rng1 = rng2 := funext fun k => funext fun l => h k l
  rw [this]

/-- **C8** (witness): two identical shuffle streams on a 3×3 maze. -/
theorem generate_maze_deterministic_witness :
    generate_maze 3 3 (fun _ l => l) = generate_maze 3 3 (fun _ l => l) :=
  generate_maze_deterministic 3 3 _ _ (fun _ _ => rfl)

/--
**C9** (counterexample): with `rows = cols = 2` and the identity shuffle,
the randomized walk opens only the room `(0,0)` — the walk result is
`[[0,1],[1,1]]` — but `generate_maze` returns `[[0,1],[1,0]]`: it forces
the cell `(rows-1, cols-1) = (1,1)` open itself, so the open cells are
not exactly those opened by the walk.
-/
theorem generate_maze_c9_counterexample :
    generate_maze 2 2 (fun _ l => l) = some [[0, 1], [1, 0]] ∧
    (visitF 2 2 (fun _ l => l) 5 [[1, 1], [1, 1]] 0 0 0).1 = [[0, 1], [1, 1]] ∧
    cellVal [[0, 1], [1, 0]] 1 1 = 0 ∧ cellVal [[0, 1], [1, 1]] 1 1 = 1 := by
  refine ⟨by decide, by decide, by decide, by decide⟩

/--
**C9** (amended): `generate_maze` itself forces the cells `(0,0)` and
`(rows-1, cols-1)` open after the randomized walk: the open cells of its
result are exactly the cells opened by the walk together with those two
forced cells.
-/
theorem generate_maze_forces_endpoints (rows cols : ℤ) (rng : Rng)
    (hr : 0 < rows) (hc : 0 < cols) :
    ∃ m, generate_maze rows cols rng = some m ∧
      ∀ r c, cellVal m r c = 0 ↔
        (cellVal (visitF rows cols rng (rows.toNat * cols.toNat + 1)
            (List.replicate rows.toNat (List.replicate cols.toNat 1)) 0 0 0).1 r c = 0 ∨
          (r, c) = ((0 : ℤ), (0 : ℤ)) ∨ (r, c) = (rows - 1, cols - 1)) := by
  have hng : ¬(rows ≤ 0 ∨ cols ≤ 0) := by omega
  refine ⟨_, by rw [generate_maze, if_neg hng], ?_⟩
  intro r c
  set walk := (visitF rows cols rng (rows.toNat * cols.toNat + 1)
    (List.replicate rows.toNat (List.replicate cols.toNat 1)) 0 0 0).1 with hwalk
  have hws : WellShaped rows cols walk :=
    visit_ws rows cols rng _ _ _ _ _ (ws_replicate rows cols)
  have hws2 : WellShaped rows cols (set2D walk 0 0 0) := ws_set2D hws 0 0 0
  by_cases hlast : (r, c) = (rows - 1, cols - 1)
  · have hrc : r = rows - 1 ∧ c = cols - 1 := by
      injection hlast with h1 h2
      exact ⟨h1, h2⟩
    obtain ⟨hr1, hc1⟩ := hrc
    subst hr1
    subst hc1
    rw [cellVal_set2D_same hws2 (by omega) (by omega) (by omega) (by omega)]
    simp
  · rw [cellVal_set2D_other hlast]
    by_cases hzero : (r, c) = ((0 : ℤ), (0 : ℤ))
    · have hrc : r = 0 ∧ c = 0 := by
        injection hzero with h1 h2
        exact ⟨h1, h2⟩
      obtain ⟨hr1, hc1⟩ := hrc
      subst hr1
      subst hc1
      rw [cellVal_set2D_same hws (by omega) (by omega) (by omega) (by omega)]
      simp
    · rw [cellVal_set2D_other hzero]
      constructor
      · intro h
        exact Or.inl h
      · rintro (h | h | h)
        · exact h
        · exact absurd h hzero
        · exact absurd h hlast

/-- **C9** (amended, witness): the characterization applied at
`rows = cols = 2` with the identity shuffle, evaluated at the forced cell
`(1,1)`. -/
theorem generate_maze_forces_endpoints_witness :
    ∃ m, generate_maze 2 2 (fun _ l => l) = some m ∧ cellVal m 1 1 = 0 := by
  obtain ⟨m, hm, hiff⟩ :=
    generate_maze_forces_endpoints 2 2 (fun _ l => l) (by omega) (by omega)
  refine ⟨m, hm, ?_⟩
  rw [hiff]
  right
  right
  rfl

/-! ### Witnesses for the conditional claims about `astar` -/

/-- **C1** (witness): on the 1×1 open grid with `start = goal = (0,0)` the
returned path has the shortest length `1`. -/
theorem astar_optimal_witness :
    ∃ p tr, astar [[0]] (0, 0) (0, 0) = some (some p, tr) ∧ p.length = 1 := by
  have hex : ∃ n, reachB [[0]] (([[0]] : List (List ℕ)).length : ℤ)
      ((([[0]] : List (List ℕ)).headD []).length : ℤ) (0, 0) n (0, 0) = true :=
    ⟨0, by decide⟩
  obtain ⟨p, tr, h1, h2⟩ := astar_optimal [[0]] (0, 0) (0, 0)
    (by decide) (by decide) (by decide) (by decide) hex
  have h0 : Nat.find hex = 0 := (Nat.find_eq_zero hex).mpr (by decide)
  exact ⟨p, tr, h1, by omega⟩

/-- **C2** (witness): the returned path on the 1×2 open grid is a valid
edge path from `(0,0)` to `(0,1)`. -/
theorem astar_path_valid_witness :
    ([(0, 0), (0, 1)] : List Cell).Chain'
        (edgeTo [[0, 0]] (([[0, 0]] : List (List ℕ)).length : ℤ)
          ((([[0, 0]] : List (List ℕ)).headD []).length : ℤ)) ∧
      ([(0, 0), (0, 1)] : List Cell).head? = some (0, 0) ∧
      ([(0, 0), (0, 1)] : List Cell).getLast? = some (0, 1) :=
  astar_path_valid [[0, 0]] (0, 0) (0, 1) (by decide) (by decide) (by decide) (by decide)
    [(0, 0), (0, 1)]
    [⟨(0, 0), 0, 1, 0, [((0, 1), 1, 0, 1)], AStatus.Searching⟩,
     ⟨(0, 0), 1, 0, 1, [], AStatus.GoalReached⟩] (by decide)

/-- **C3** (amended, witness): the terminal record of the run on the 1×2
grid is `GoalReached` with empty neighbors and `node = start`. -/
theorem astar_goal_record_witness :
    ∃ pre final,
      ([⟨(0, 0), 0, 1, 0, [((0, 1), 1, 0, 1)], AStatus.Searching⟩,
        ⟨(0, 0), 1, 0, 1, [], AStatus.GoalReached⟩] : List StepRecord) = pre ++ [final] ∧
      (∀ r ∈ pre, r.status = AStatus.Searching) ∧
      final.status = AStatus.GoalReached ∧ final.neighbors = [] ∧
      final.node = (0, 0) ∧
      ([(0, 0), (0, 1)] : List Cell).head? = some (0, 0) ∧
      ([(0, 0), (0, 1)] : List Cell).getLast? = some (0, 1) :=
  astar_goal_record [[0, 0]] (0, 0) (0, 1) (by decide) (by decide)
    [(0, 0), (0, 1)]
    [⟨(0, 0), 0, 1, 0, [((0, 1), 1, 0, 1)], AStatus.Searching⟩,
     ⟨(0, 0), 1, 0, 1, [], AStatus.GoalReached⟩] (by decide)

/-- **C4** (amended, witness): the trace of the run on the 1×2 grid is a
block of `Searching` records closed by one `GoalReached` record. -/
theorem astar_trace_records_witness :
    ((some [((0 : ℤ), (0 : ℤ)), (0, 1)] : Option (List Cell)) = none →
      ∀ r ∈ ([⟨(0, 0), 0, 1, 0, [((0, 1), 1, 0, 1)], AStatus.Searching⟩,
        ⟨(0, 0), 1, 0, 1, [], AStatus.GoalReached⟩] : List StepRecord),
        r.status = AStatus.Searching) ∧
    (∀ p, (some [((0 : ℤ), (0 : ℤ)), (0, 1)] : Option (List Cell)) = some p →
      ∃ pre final,
        ([⟨(0, 0), 0, 1, 0, [((0, 1), 1, 0, 1)], AStatus.Searching⟩,
          ⟨(0, 0), 1, 0, 1, [], AStatus.GoalReached⟩] : List StepRecord) = pre ++ [final] ∧
        (∀ r ∈ pre, r.status = AStatus.Searching) ∧
        final.status = AStatus.GoalReached ∧ final.neighbors = []) :=
  astar_trace_records [[0, 0]] (0, 0) (0, 1) (by decide) (by decide)
    (some [(0, 0), (0, 1)])
    [⟨(0, 0), 0, 1, 0, [((0, 1), 1, 0, 1)], AStatus.Searching⟩,
     ⟨(0, 0), 1, 0, 1, [], AStatus.GoalReached⟩] (by decide)

/-- **C5** (amended, witness): the seed record of the run on the 1×2 grid
satisfies the bound, through the seed disjunct. -/
theorem astar_record_f_bound_witness :
    (⟨(0, 0), 0, 1, 0, [((0, 1), 1, 0, 1)], AStatus.Searching⟩ : StepRecord).g +
        (⟨(0, 0), 0, 1, 0, [((0, 1), 1, 0, 1)], AStatus.Searching⟩ : StepRecord).h ≤
        (⟨(0, 0), 0, 1, 0, [((0, 1), 1, 0, 1)], AStatus.Searching⟩ : StepRecord).f ∨
      ((⟨(0, 0), 0, 1, 0, [((0, 1), 1, 0, 1)], AStatus.Searching⟩ : StepRecord).f = 0 ∧
        (⟨(0, 0), 0, 1, 0, [((0, 1), 1, 0, 1)], AStatus.Searching⟩ : StepRecord).g = 0 ∧
        (⟨(0, 0), 0, 1, 0, [((0, 1), 1, 0, 1)], AStatus.Searching⟩ : StepRecord).node = (0, 0)) :=
  astar_record_f_bound [[0, 0]] (0, 0) (0, 1) (by decide) (by decide)
    (some [(0, 0), (0, 1)])
    [⟨(0, 0), 0, 1, 0, [((0, 1), 1, 0, 1)], AStatus.Searching⟩,
     ⟨(0, 0), 1, 0, 1, [], AStatus.GoalReached⟩] (by decide)
    ⟨(0, 0), 0, 1, 0, [((0, 1), 1, 0, 1)], AStatus.Searching⟩ (by decide)

/-- **C6** (witness): the theorem applied to a 1×1 maze with the identity
shuffle. -/
theorem generate_maze_perfect_witness :
    ∃ m, generate_maze 1 1 (fun _ l => l) = some m ∧
      (∀ v : Cell, Room 1 1 v → isOpen m v) ∧
      (∀ v w : Cell, Room 1 1 v → Room 1 1 w →
        ∃! l : List Cell, SimplePath 1 1 m l v w) :=
  generate_maze_perfect 1 1 (fun _ l => l) (by decide) (by decide)
    (fun _ l => List.Perm.refl l)

end AStarMaze
